import Mathlib

/-!
Verification of the fractal-marker detector `opencv_fractal.h`
(namespace `opencvfractal`): shallow embedding of the decoding rule
`FractalMarkerDetector::getMarkerId`, the candidate deduplication in
`detect`, the extended correspondence stage, `FractalMarkerSet::convertToMeters`,
`kfilter`, the adaptive-threshold window size, and the class decision of
`assignClass`, together with theorems settling the specification claims.
-/

set_option maxRecDepth 40000

namespace OpencvFractal

/-- A square grid of byte values, indexed `(row, column)`, modelling a
`cv::Mat` of type `CV_8UC1` as used by the detector. -/
def Grid (n : ℕ) : Type := Fin n × Fin n → ℕ

/-- Index map of one 90-degree clockwise rotation: the rotated grid reads
cell `(i, j)` from cell `(cols - 1 - j, i)` of the original, as in the
`rotate` lambda of `FractalMarkerDetector::getMarkerId`. -/
def rotIdx {n : ℕ} (p : Fin n × Fin n) : Fin n × Fin n := (p.2.rev, p.1)

/-- 90-degree clockwise rotation of a grid:
`out.at(i, j) = in.at(in.cols - j - 1, i)`. -/
def rotateCW {n : ℕ} (g : Grid n) : Grid n := fun p => g (rotIdx p)

/-- One catalogue marker: the bit matrix `_M` and the mask `_mask` that hides
the cells occupied by nested child markers (class `FractalMarker`). -/
structure CatMarker (n : ℕ) where
  bits : Grid n
  mask : Grid n

/-- The comparison performed by `getMarkerId`:
`bit_inner.copyTo(masked, fm.mask())` zero-fills cells where the mask is 0 and
copies the sampled cell elsewhere, and the candidate matches when
`cv::countNonZero(masked != fm.mat()*255) == 0`, i.e. the masked grid equals
`bits * 255` at every cell. -/
def maskedEq {n : ℕ} (m : CatMarker n) (g : Grid n) : Prop :=
  ∀ p, (if m.mask p ≠ 0 then g p else 0) = 255 * m.bits p

instance maskedEqDec {n : ℕ} (m : CatMarker n) (g : Grid n) :
    Decidable (maskedEq m g) := by
  unfold maskedEq; infer_instance

/-- Scan the candidate id list in order for the first marker whose masked bit
pattern matches the (rotated) inner block. -/
def findId {n : ℕ} (coll : ℕ → CatMarker n) (ids : List ℕ) (g : Grid n) :
    Option ℕ :=
  ids.find? fun i => decide (maskedEq (coll i) g)

/-- The rotation scan of `getMarkerId`: rotation counts 0, 1, 2, 3 are tried in
ascending order, the whole id list being scanned at each count before the inner
block is rotated again. -/
def scanRots {n : ℕ} (coll : ℕ → CatMarker n) (ids : List ℕ) (g : Grid n) :
    Option (ℕ × ℕ) :=
  match findId coll ids g with
  | some i => some (i, 0)
  | none =>
    match findId coll ids (rotateCW g) with
    | some i => some (i, 1)
    | none =>
      match findId coll ids (rotateCW (rotateCW g)) with
      | some i => some (i, 2)
      | none =>
        match findId coll ids (rotateCW (rotateCW (rotateCW g))) with
        | some i => some (i, 3)
        | none => none

/-- The border check of `getMarkerId`: every cell of row 0, the last row,
column 0 and the last column of the sampled grid must be 0. -/
def borderZero {n : ℕ} (b : Grid (n + 2)) : Prop :=
  ∀ x : Fin (n + 2),
    b (0, x) = 0 ∧ b (Fin.last (n + 1), x) = 0 ∧
    b (x, 0) = 0 ∧ b (x, Fin.last (n + 1)) = 0

instance borderZeroDec {n : ℕ} (b : Grid (n + 2)) : Decidable (borderZero b) := by
  unfold borderZero; infer_instance

/-- The inner S×S block of the sampled (S+2)×(S+2) grid, the black border
removed: `bit_inner.at(r, c) = bits.at(r+1, c+1)`. -/
def innerBlock {n : ℕ} (b : Grid (n + 2)) : Grid n :=
  fun p => b (p.1.succ.castSucc, p.2.succ.castSucc)

/-- Shallow embedding of `FractalMarkerDetector::getMarkerId`: `none` models
the return value `UnknownMarker` (-1); `some (id, nrot)` models a successful
decode with `nrotations = nrot`. -/
def getMarkerId {n : ℕ} (b : Grid (n + 2)) (ids : List ℕ)
    (coll : ℕ → CatMarker n) : Option (ℕ × ℕ) :=
  if borderZero b then scanRots coll ids (innerBlock b) else none

/-- Matching as the specification words it: the sampled block equals
`bits * 255` on every cell where the mask is 1, cells where the mask is 0
being ignored regardless of the sampled value there. -/
def specMatch {n : ℕ} (m : CatMarker n) (g : Grid n) : Prop :=
  ∀ p, m.mask p = 1 → g p = 255 * m.bits p

instance specMatchDec {n : ℕ} (m : CatMarker n) (g : Grid n) :
    Decidable (specMatch m g) := by
  unfold specMatch; infer_instance

/-- `findId` with the specification's masked-match condition. -/
def findIdSpec {n : ℕ} (coll : ℕ → CatMarker n) (ids : List ℕ) (g : Grid n) :
    Option ℕ :=
  ids.find? fun i => decide (specMatch (coll i) g)

/-- The rotation scan with the specification's masked-match condition. -/
def scanRotsSpec {n : ℕ} (coll : ℕ → CatMarker n) (ids : List ℕ) (g : Grid n) :
    Option (ℕ × ℕ) :=
  match findIdSpec coll ids g with
  | some i => some (i, 0)
  | none =>
    match findIdSpec coll ids (rotateCW g) with
    | some i => some (i, 1)
    | none =>
      match findIdSpec coll ids (rotateCW (rotateCW g)) with
      | some i => some (i, 2)
      | none =>
        match findIdSpec coll ids (rotateCW (rotateCW (rotateCW g))) with
        | some i => some (i, 3)
        | none => none

/-- The decoding rule exactly as the specification describes it: reject unless
the border is all zero, then return the first `(id, nrot)` — rotation counts
tried in ascending order, ids in list order — whose rotated inner block matches
the marker on the mask-1 cells. -/
def getMarkerIdSpec {n : ℕ} (b : Grid (n + 2)) (ids : List ℕ)
    (coll : ℕ → CatMarker n) : Option (ℕ × ℕ) :=
  if borderZero b then scanRotsSpec coll ids (innerBlock b) else none

/-- For a marker whose mask is 0/1-valued and whose bits vanish wherever the
mask is 0 (true of every marker of the shipped catalogues, where child regions
are stored as zero bits), the code's whole-grid comparison against the
zero-filled masked copy agrees with the specification's mask-restricted
comparison. -/
theorem maskedEq_iff_specMatch {n : ℕ} (m : CatMarker n) (g : Grid n)
    (hbin : ∀ p, m.mask p = 0 ∨ m.mask p = 1)
    (hzero : ∀ p, m.mask p = 0 → m.bits p = 0) :
    maskedEq m g ↔ specMatch m g := by
  constructor
  · intro h p hp
    have hh := h p
    rw [if_pos (by rw [hp]; exact one_ne_zero)] at hh
    exact hh
  · intro h p
    rcases hbin p with h0 | h1
    · rw [if_neg (by simp [h0]), hzero p h0, mul_zero]
    · rw [if_pos (by rw [h1]; exact one_ne_zero)]
      exact h p h1

theorem find?_congrFun {α : Type} (l : List α) (f g : α → Bool)
    (h : ∀ a ∈ l, f a = g a) : l.find? f = l.find? g := by
  induction l with
  | nil => rfl
  | cons a t ih =>
    have ha := h a (List.mem_cons_self a t)
    by_cases hfa : f a = true
    · rw [List.find?_cons_of_pos _ hfa, List.find?_cons_of_pos _ (ha ▸ hfa)]
    · rw [List.find?_cons_of_neg _ hfa, List.find?_cons_of_neg _ (ha ▸ hfa)]
      exact ih fun a ha' => h a (List.mem_cons_of_mem _ ha')

/-- Claim C1: for every sampled (S+2)×(S+2) grid and every candidate id list
over a catalogue whose masks are 0/1-valued with bits vanishing under the mask
(as in the shipped catalogues), `getMarkerId` returns `UnknownMarker` when any
border cell is nonzero, and otherwise the first `(id, nrot)` — rotation counts
in ascending order, ids in list order — whose rotated inner block equals the
marker's `bits * 255` on every mask-1 cell, mask-0 cells being ignored
regardless of the sampled value; `UnknownMarker` if no pair matches. -/
theorem getMarkerId_eq_spec {n : ℕ} (b : Grid (n + 2)) (ids : List ℕ)
    (coll : ℕ → CatMarker n)
    (hbin : ∀ i ∈ ids, ∀ p, (coll i).mask p = 0 ∨ (coll i).mask p = 1)
    (hzero : ∀ i ∈ ids, ∀ p, (coll i).mask p = 0 → (coll i).bits p = 0) :
    getMarkerId b ids coll = getMarkerIdSpec b ids coll := by
  have hfind : ∀ g : Grid n, findId coll ids g = findIdSpec coll ids g := by
    intro g
    apply find?_congrFun
    intro i hi
    exact decide_eq_decide.mpr
      (maskedEq_iff_specMatch (coll i) g (hbin i hi) (hzero i hi))
  unfold getMarkerId getMarkerIdSpec scanRots scanRotsSpec
  simp only [hfind]

/-- Witness marker for the decoding-rule claims: a 2×2 marker with a single
set bit and an all-ones mask. -/
def wMarker : CatMarker 2 where
  bits := fun p => if p.1 = 0 ∧ p.2 = 0 then 1 else 0
  mask := fun _ => 1

/-- Witness catalogue mapping every id to `wMarker`. -/
def wColl : ℕ → CatMarker 2 := fun _ => wMarker

/-- Witness sampled 4×4 grid: zero border, inner block equal to
`wMarker.bits * 255`. -/
def wGrid : Grid 4 := fun p => if p.1.val = 1 ∧ p.2.val = 1 then 255 else 0

theorem getMarkerId_eq_spec_witness :
    ((∀ i ∈ [0], ∀ p, (wColl i).mask p = 0 ∨ (wColl i).mask p = 1) ∧
      (∀ i ∈ [0], ∀ p, (wColl i).mask p = 0 → (wColl i).bits p = 0) ∧
      getMarkerId wGrid [0] wColl = some (0, 0)) ∧
    getMarkerId wGrid [0] wColl = getMarkerIdSpec wGrid [0] wColl :=
  ⟨⟨by decide, by decide, by decide⟩,
    getMarkerId_eq_spec wGrid [0] wColl (by decide) (by decide)⟩

/-- Rotation rigidity of a pair of catalogue markers: some cell visible in
both masks forces different bit values between the first marker and the
`k`-times-rotated reading of the second, so no inner block can match `A`
unrotated and `B` after `k` further rotations. Every marker of the shipped
catalogues is rigid against itself for k = 1, 2, 3 (the codes are
rotation-asymmetric by construction). -/
def rigidPair {n : ℕ} (A B : CatMarker n) (k : ℕ) : Prop :=
  ∃ p, B.mask p ≠ 0 ∧ A.mask (rotIdx^[k] p) ≠ 0 ∧
    A.bits (rotIdx^[k] p) ≠ B.bits p

instance rigidPairDec {n : ℕ} (A B : CatMarker n) (k : ℕ) :
    Decidable (rigidPair A B k) := by
  unfold rigidPair; infer_instance

theorem maskedEq_conflict {n : ℕ} {A B : CatMarker n} {g : Grid n} {k : ℕ}
    (hr : rigidPair A B k) (hA : maskedEq A g)
    (hB : maskedEq B (fun p => g (rotIdx^[k] p))) : False := by
  obtain ⟨p, hBm, hAm, hne⟩ := hr
  have h1 : g (rotIdx^[k] p) = 255 * B.bits p := by
    have h := hB p; rw [if_pos hBm] at h; exact h
  have h2 : g (rotIdx^[k] p) = 255 * A.bits (rotIdx^[k] p) := by
    have h := hA (rotIdx^[k] p); rw [if_pos hAm] at h; exact h
  apply hne
  have h3 : (255 : ℕ) * A.bits (rotIdx^[k] p) = 255 * B.bits p := by
    rw [← h2, h1]
  exact Nat.eq_of_mul_eq_mul_left (by norm_num) h3

theorem borderZero_rotateCW {n : ℕ} (b : Grid (n + 2)) :
    borderZero (rotateCW b) ↔ borderZero b := by
  constructor
  · intro h x
    obtain ⟨c1, c2, _, _⟩ := h x.rev
    have d1 := (h x).2.2.1
    have d2 := (h x).2.2.2
    refine ⟨?_, ?_, ?_, ?_⟩
    · simpa [rotateCW, rotIdx] using d2
    · simpa [rotateCW, rotIdx] using d1
    · simpa [rotateCW, rotIdx] using c1
    · simpa [rotateCW, rotIdx] using c2
  · intro h x
    obtain ⟨_, _, e3, e4⟩ := h x.rev
    obtain ⟨f1, f2, _, _⟩ := h x
    refine ⟨?_, ?_, ?_, ?_⟩
    · simpa [rotateCW, rotIdx] using e3
    · simpa [rotateCW, rotIdx] using e4
    · simpa [rotateCW, rotIdx] using f2
    · simpa [rotateCW, rotIdx] using f1

theorem innerBlock_rotateCW {n : ℕ} (b : Grid (n + 2)) :
    innerBlock (rotateCW b) = rotateCW (innerBlock b) := by
  funext p
  show b ((p.2.succ.castSucc).rev, p.1.succ.castSucc)
      = b ((p.2.rev).succ.castSucc, p.1.succ.castSucc)
  have hrev : (p.2.succ.castSucc).rev = (p.2.rev).succ.castSucc := by
    ext
    have := p.2.isLt
    simp only [Fin.val_rev, Fin.coe_castSucc, Fin.val_succ]
    omega
  rw [hrev]

theorem rotateCW_four {n : ℕ} (g : Grid n) :
    rotateCW (rotateCW (rotateCW (rotateCW g))) = g := by
  funext p
  show g (rotIdx (rotIdx (rotIdx (rotIdx p)))) = g p
  congr 1
  simp [rotIdx]

theorem findId_some {n : ℕ} {coll : ℕ → CatMarker n} {ids : List ℕ}
    {g : Grid n} {i : ℕ} (h : findId coll ids g = some i) :
    i ∈ ids ∧ maskedEq (coll i) g := by
  unfold findId at h
  refine ⟨List.mem_of_find?_eq_some h, ?_⟩
  have hp := List.find?_some h
  simpa using hp

theorem findId_rot_none {n : ℕ} {coll : ℕ → CatMarker n} {ids : List ℕ}
    {g : Grid n} {i : ℕ} (k : ℕ) (hk4 : k < 4) (hk : 1 ≤ k)
    (hrig : ∀ a ∈ ids, ∀ c ∈ ids, ∀ k' < 4, 1 ≤ k' →
      rigidPair (coll a) (coll c) k')
    (h0 : findId coll ids g = some i)
    (g' : Grid n) (hg' : ∀ p, g' p = g (rotIdx^[k] p)) :
    findId coll ids g' = none := by
  cases hc : findId coll ids g' with
  | none => rfl
  | some c =>
    exfalso
    obtain ⟨hi, hAi⟩ := findId_some h0
    obtain ⟨hcmem, hBc⟩ := findId_some hc
    have hB' : maskedEq (coll c) (fun p => g (rotIdx^[k] p)) := by
      intro p
      have h := hBc p
      rw [hg'] at h
      exact h
    exact maskedEq_conflict (hrig i hi c hcmem k hk4 hk) hAi hB'

/-- Claim C2: if a sampled matrix decodes to `(id, nrot)` then its 90-degree
clockwise rotation decodes to `(id, (nrot - 1) mod 4)` (written here as
`(nrot + 3) % 4`), provided every pair of candidate markers is
rotation-rigid — as the shipped catalogues are. -/
theorem getMarkerId_rotate {n : ℕ} (b : Grid (n + 2)) (ids : List ℕ)
    (coll : ℕ → CatMarker n) (i r : ℕ)
    (hrig : ∀ a ∈ ids, ∀ c ∈ ids, ∀ k < 4, 1 ≤ k →
      rigidPair (coll a) (coll c) k)
    (h : getMarkerId b ids coll = some (i, r)) :
    getMarkerId (rotateCW b) ids coll = some (i, (r + 3) % 4) := by
  unfold getMarkerId at h ⊢
  by_cases hb : borderZero b
  · rw [if_pos hb] at h
    rw [if_pos ((borderZero_rotateCW b).mpr hb), innerBlock_rotateCW]
    set g := innerBlock b with hgdef
    unfold scanRots at h ⊢
    cases h0 : findId coll ids g with
    | some i0 =>
      simp only [h0, Option.some.injEq, Prod.mk.injEq] at h
      obtain ⟨hi, hr⟩ := h
      subst hi; subst hr
      have hn1 : findId coll ids (rotateCW g) = none :=
        findId_rot_none 1 (by omega) (by omega) hrig h0 (rotateCW g)
          (fun _ => rfl)
      have hn2 : findId coll ids (rotateCW (rotateCW g)) = none :=
        findId_rot_none 2 (by omega) (by omega) hrig h0
          (rotateCW (rotateCW g)) (fun _ => rfl)
      have hn3 : findId coll ids (rotateCW (rotateCW (rotateCW g))) = none :=
        findId_rot_none 3 (by omega) (by omega) hrig h0
          (rotateCW (rotateCW (rotateCW g))) (fun _ => rfl)
      simp only [hn1, hn2, hn3, rotateCW_four, h0]
    | none =>
      rw [h0] at h
      cases h1 : findId coll ids (rotateCW g) with
      | some i1 =>
        simp only [h1, Option.some.injEq, Prod.mk.injEq] at h
        obtain ⟨hi, hr⟩ := h
        subst hi; subst hr
        simp only [h1]
      | none =>
        rw [h1] at h
        cases h2 : findId coll ids (rotateCW (rotateCW g)) with
        | some i2 =>
          simp only [h2, Option.some.injEq, Prod.mk.injEq] at h
          obtain ⟨hi, hr⟩ := h
          subst hi; subst hr
          simp only [h1, h2]
        | none =>
          rw [h2] at h
          cases h3 : findId coll ids (rotateCW (rotateCW (rotateCW g))) with
          | some i3 =>
            simp only [h3, Option.some.injEq, Prod.mk.injEq] at h
            obtain ⟨hi, hr⟩ := h
            subst hi; subst hr
            simp only [h1, h2, h3]
          | none =>
            rw [h3] at h
            exact absurd h (by simp)
  · rw [if_neg hb] at h
    exact absurd h (by simp)

/-- Witness marker for the rotation claim: a single set bit at the top-left
of a 2×2 code, rotation-rigid for every nontrivial rotation count. -/
def w2Marker : CatMarker 2 where
  bits := fun p => if p.1 = 0 ∧ p.2 = 0 then 1 else 0
  mask := fun _ => 1

/-- Witness catalogue for the rotation claim. -/
def w2Coll : ℕ → CatMarker 2 := fun _ => w2Marker

/-- Witness sampled 4×4 grid for the rotation claim: zero border, inner block
equal to `w2Marker.bits * 255`. -/
def w2Grid : Grid 4 := fun p => if p.1.val = 1 ∧ p.2.val = 1 then 255 else 0

theorem getMarkerId_rotate_witness :
    ((∀ a ∈ [5], ∀ c ∈ [5], ∀ k < 4, 1 ≤ k →
        rigidPair (w2Coll a) (w2Coll c) k) ∧
      getMarkerId w2Grid [5] w2Coll = some (5, 0)) ∧
    getMarkerId (rotateCW w2Grid) [5] w2Coll = some (5, (0 + 3) % 4) :=
  ⟨⟨by decide, by decide⟩,
    getMarkerId_rotate w2Grid [5] w2Coll 5 0 (by decide) (by decide)⟩

/-- The ordering established by the duplicate-removal sort in
`FractalMarkerDetector::detect`: ascending id and, within one id, the larger
perimeter first (comparator `a.first < b.first`, ties broken by
`perimeter(a.second) > perimeter(b.second)`). The quad payload and the
integer-valued perimeter function (`FractalMarkerDetector::perimeter`) are
kept abstract: the deduplication step only ever consults them through this
comparator. -/
def candLE {α : Type} (perim : α → ℤ) (a b : ℤ × α) : Prop :=
  a.1 < b.1 ∨ (a.1 = b.1 ∧ perim b.2 ≤ perim a.2)

instance candLEDec {α : Type} (perim : α → ℤ) : DecidableRel (candLE perim) :=
  fun a b => by unfold candLE; infer_instance

instance candLETotalI {α : Type} (perim : α → ℤ) :
    IsTotal (ℤ × α) (candLE perim) where
  total a b := by
    unfold candLE
    rcases lt_trichotomy a.1 b.1 with h | h | h
    · exact Or.inl (Or.inl h)
    · rcases le_total (perim b.2) (perim a.2) with hp | hp
      · exact Or.inl (Or.inr ⟨h, hp⟩)
      · exact Or.inr (Or.inr ⟨h.symm, hp⟩)
    · exact Or.inr (Or.inl h)

instance candLETransI {α : Type} (perim : α → ℤ) :
    IsTrans (ℤ × α) (candLE perim) where
  trans a b c hab hbc := by
    unfold candLE at hab hbc ⊢
    rcases hab with h1 | ⟨e1, p1⟩ <;> rcases hbc with h2 | ⟨e2, p2⟩
    · exact Or.inl (h1.trans h2)
    · exact Or.inl (lt_of_lt_of_le h1 (le_of_eq e2))
    · exact Or.inl (lt_of_le_of_lt (le_of_eq e1) h2)
    · exact Or.inr ⟨e1.trans e2, p2.trans p1⟩

/-- The `std::unique` pass over the sorted candidate list: drop an element
when its id equals the id of the last element kept, which stays the point of
comparison for the following elements. -/
def dedupKeep {α : Type} (a : ℤ × α) : List (ℤ × α) → List (ℤ × α)
  | [] => []
  | b :: l => if a.1 = b.1 then dedupKeep a l else b :: dedupKeep b l

/-- `std::unique` keeps the first element unconditionally. -/
def uniqueAdjacent {α : Type} : List (ℤ × α) → List (ℤ × α)
  | [] => []
  | a :: l => a :: dedupKeep a l

/-- The duplicate-removal step of `detect`: sort the accepted `(id, quad)`
candidates by the comparator, then remove consecutive pairs with equal id.
`std::sort` is modelled by insertion sort — any comparator-consistent sorted
permutation; `std::sort` does not promise more. -/
def removeDuplicates {α : Type} (perim : α → ℤ) (cands : List (ℤ × α)) :
    List (ℤ × α) :=
  uniqueAdjacent (List.insertionSort (candLE perim) cands)

theorem dedupKeep_subset {α : Type} :
    ∀ (l : List (ℤ × α)) (a x : ℤ × α), x ∈ dedupKeep a l → x ∈ l := by
  intro l
  induction l with
  | nil => intro a x h; exact absurd h (List.not_mem_nil x)
  | cons b t ih =>
    intro a x h
    unfold dedupKeep at h
    by_cases hab : a.1 = b.1
    · rw [if_pos hab] at h
      exact List.mem_cons_of_mem b (ih a x h)
    · rw [if_neg hab] at h
      rcases List.mem_cons.mp h with h' | h'
      · simp [h']
      · exact List.mem_cons_of_mem b (ih b x h')

theorem dedupKeep_max {α : Type} (perim : α → ℤ) :
    ∀ (l : List (ℤ × α)) (a : ℤ × α),
      List.Pairwise (candLE perim) (a :: l) →
      ∀ x ∈ dedupKeep a l,
        a.1 < x.1 ∧ ∀ y ∈ l, y.1 = x.1 → perim y.2 ≤ perim x.2 := by
  intro l
  induction l with
  | nil => intro a _ x hx; exact absurd hx (List.not_mem_nil x)
  | cons b t ih =>
    intro a hp x hx
    obtain ⟨ha, hbt⟩ := List.pairwise_cons.mp hp
    obtain ⟨hb, ht⟩ := List.pairwise_cons.mp hbt
    unfold dedupKeep at hx
    by_cases hab : a.1 = b.1
    · rw [if_pos hab] at hx
      have hp' : List.Pairwise (candLE perim) (a :: t) :=
        List.pairwise_cons.mpr
          ⟨fun y hy => ha y (List.mem_cons_of_mem b hy), ht⟩
      obtain ⟨hlt, hmax⟩ := ih a hp' x hx
      refine ⟨hlt, ?_⟩
      intro y hy hyx
      rcases List.mem_cons.mp hy with rfl | hy'
      · exfalso; omega
      · exact hmax y hy' hyx
    · rw [if_neg hab] at hx
      have haltb : a.1 < b.1 := by
        rcases ha b (List.mem_cons_self b t) with h | ⟨h, _⟩
        · exact h
        · exact absurd h hab
      rcases List.mem_cons.mp hx with rfl | hx'
      · refine ⟨haltb, ?_⟩
        intro y hy hyx
        rcases List.mem_cons.mp hy with rfl | hy'
        · exact le_refl _
        · rcases hb y hy' with h | ⟨_, h⟩
          · exfalso; omega
          · exact h
      · obtain ⟨hlt, hmax⟩ := ih b hbt x hx'
        refine ⟨haltb.trans hlt, ?_⟩
        intro y hy hyx
        rcases List.mem_cons.mp hy with rfl | hy'
        · exfalso; omega
        · exact hmax y hy' hyx

theorem dedupKeep_pairwise {α : Type} (perim : α → ℤ) :
    ∀ (l : List (ℤ × α)) (a : ℤ × α),
      List.Pairwise (candLE perim) (a :: l) →
      List.Pairwise (fun x y : ℤ × α => x.1 < y.1) (a :: dedupKeep a l) := by
  intro l
  induction l with
  | nil => intro a _; simp [dedupKeep]
  | cons b t ih =>
    intro a hp
    obtain ⟨ha, hbt⟩ := List.pairwise_cons.mp hp
    unfold dedupKeep
    by_cases hab : a.1 = b.1
    · rw [if_pos hab]
      exact ih a (List.pairwise_cons.mpr
        ⟨fun y hy => ha y (List.mem_cons_of_mem b hy),
          (List.pairwise_cons.mp hbt).2⟩)
    · rw [if_neg hab]
      have hres := ih b hbt
      have haltb : a.1 < b.1 := by
        rcases ha b (List.mem_cons_self b t) with h | ⟨h, _⟩
        · exact h
        · exact absurd h hab
      refine List.pairwise_cons.mpr ⟨?_, hres⟩
      intro y hy
      rcases List.mem_cons.mp hy with rfl | hy'
      · exact haltb
      · have hby := (dedupKeep_max perim t b hbt y hy').1
        omega

/-- Claim C3: in the deduplicated candidate list that `detect` turns into its
result, the ids are pairwise distinct, every kept `(id, quad)` is one of the
accepted candidates, and its (pre-refinement) perimeter is maximal among all
accepted candidates carrying that id. -/
theorem removeDuplicates_correct {α : Type} (perim : α → ℤ)
    (cands : List (ℤ × α)) :
    ((removeDuplicates perim cands).map Prod.fst).Nodup ∧
    (∀ x ∈ removeDuplicates perim cands, x ∈ cands) ∧
    (∀ x ∈ removeDuplicates perim cands, ∀ y ∈ cands,
      y.1 = x.1 → perim y.2 ≤ perim x.2) := by
  have hsorted : List.Pairwise (candLE perim)
      (List.insertionSort (candLE perim) cands) :=
    List.sorted_insertionSort (candLE perim) cands
  have hmem : ∀ x : ℤ × α,
      x ∈ List.insertionSort (candLE perim) cands ↔ x ∈ cands :=
    fun x => List.mem_insertionSort (candLE perim)
  unfold removeDuplicates
  cases hE : List.insertionSort (candLE perim) cands with
  | nil => simp [uniqueAdjacent]
  | cons a t =>
    rw [hE] at hsorted
    have hmem' : ∀ x : ℤ × α, x ∈ a :: t ↔ x ∈ cands := fun x => by
      rw [← hE]; exact hmem x
    refine ⟨?_, ?_, ?_⟩
    · show ((a :: dedupKeep a t).map Prod.fst).Nodup
      exact List.Pairwise.map Prod.fst (fun x y h => Int.ne_of_lt h)
        (dedupKeep_pairwise perim t a hsorted)
    · intro x hx
      rcases List.mem_cons.mp hx with rfl | hx'
      · exact (hmem' x).mp (List.mem_cons_self x t)
      · exact (hmem' x).mp
          (List.mem_cons_of_mem a (dedupKeep_subset t a x hx'))
    · intro x hx y hy hyx
      have hy' := (hmem' y).mpr hy
      rcases List.mem_cons.mp hx with rfl | hx'
      · rcases List.mem_cons.mp hy' with rfl | hy''
        · exact le_refl _
        · rcases (List.pairwise_cons.mp hsorted).1 y hy'' with h | ⟨_, h⟩
          · exfalso; omega
          · exact h
      · obtain ⟨hlt, hmax⟩ := dedupKeep_max perim t a hsorted x hx'
        rcases List.mem_cons.mp hy' with rfl | hy''
        · exfalso; omega
        · exact hmax y hy'' hyx

theorem removeDuplicates_correct_witness :
    removeDuplicates (fun q : ℤ => q) [(1, 5), (1, 9), (2, 3)]
        = [(1, 9), (2, 3)] ∧
    (((removeDuplicates (fun q : ℤ => q) [(1, 5), (1, 9), (2, 3)]).map
        Prod.fst).Nodup ∧
      (∀ x ∈ removeDuplicates (fun q : ℤ => q) [(1, 5), (1, 9), (2, 3)],
        x ∈ [(1, 5), (1, 9), (2, 3)]) ∧
      (∀ x ∈ removeDuplicates (fun q : ℤ => q) [(1, 5), (1, 9), (2, 3)],
        ∀ y ∈ [(1, 5), (1, 9), (2, 3)], y.1 = x.1 → (fun q : ℤ => q) y.2 ≤
          (fun q : ℤ => q) x.2)) :=
  ⟨by decide, removeDuplicates_correct (fun q : ℤ => q) [(1, 5), (1, 9), (2, 3)]⟩

/-- A 2-D image point with exact rational coordinates. -/
abbrev Pt : Type := ℚ × ℚ

/-- A 3-D model point; the emitted correspondences always carry z = 0. -/
abbrev Pt3 : Type := ℚ × ℚ × ℚ

/-- Squared pixel distance, `pow(xi - xj, 2) + pow(yi - yj, 2)`. -/
def sqDist (p q : Pt) : ℚ :=
  (p.1 - q.1) * (p.1 - q.1) + (p.2 - q.2) * (p.2 - q.2)

/-- The scale gate of `detect(img, p3d, p2d)`: `consider` remains true iff no
pair of projected keypoints lies at squared distance below 150. -/
def allPairsFar : List Pt → Bool
  | [] => true
  | p :: rest =>
    (rest.all fun q => decide (150 ≤ sqDist p q)) && allPairsFar rest

/-- One detected marker as the correspondence stage reads it: its id, the
model positions of its keypoints (`keypts`, the first four being the external
corners), and the four detected image corners the marker carries as a point
vector. -/
structure DetMarker where
  id : ℤ
  keypts : List Pt
  corners : List Pt
  deriving DecidableEq

/-- The accumulator threaded through the per-marker loop of
`detect(img, p3d, p2d)`: the claimed keypoint indices with their kept
real distances, and the output correspondence vectors. -/
structure CorrState where
  nearestIdxList : List ℤ
  distsList : List ℚ
  p3d : List Pt3
  p2d : List Pt

/-- Processing of one projected keypoint inside the `consider` branch:
bounds check, KD-tree query (`radiusSearch`, abstracted as `search`,
returning `(indices[0], dists[0])`), class/distance rejection, and the
index-based deduplication that either updates the slot of an already claimed
keypoint or appends a fresh pair. `normF` abstracts `cv::norm`. -/
def processPoint (cols rows : ℚ) (search : Pt → ℤ × ℚ) (normF : Pt → Pt → ℚ)
    (kpos : ℤ → Pt) (kclass : ℤ → ℤ)
    (objPt : Pt) (objClass : ℤ) (imgPt : Pt) (st : CorrState) : CorrState :=
  if 0 < imgPt.1 ∧ imgPt.1 < cols ∧ 0 < imgPt.2 ∧ imgPt.2 < rows then
    if kclass (search imgPt).1 ≠ objClass ∨ 320 < (search imgPt).2 ∨
        (search imgPt).2 = 0 then st
    else if (search imgPt).1 ≠ -1 then
      match st.nearestIdxList.findIdx? (fun j => decide (j = (search imgPt).1))
        with
      | some i =>
        if normF (kpos (search imgPt).1) imgPt < st.distsList.getD i 0 then
          { st with
            distsList := st.distsList.set i (normF (kpos (search imgPt).1) imgPt)
            p3d := st.p3d.set i (objPt.1, objPt.2, 0)
            p2d := st.p2d.set i (kpos (search imgPt).1) }
        else st
      | none =>
        { nearestIdxList := st.nearestIdxList ++ [(search imgPt).1]
          distsList := st.distsList ++ [normF (kpos (search imgPt).1) imgPt]
          p3d := st.p3d ++ [(objPt.1, objPt.2, 0)]
          p2d := st.p2d ++ [kpos (search imgPt).1] }
    else st
  else st

/-- Processing of one catalogue marker: project its model keypoints
(`cv::perspectiveTransform`, abstracted as `proj`), apply the scale gate, and
either match every projected point or — when the gate fails — fall back to
appending the 4 external corners of the directly detected marker with the
same id, if any. -/
def processMarker (cols rows : ℚ) (search : Pt → ℤ × ℚ) (normF : Pt → Pt → ℚ)
    (kpos : ℤ → Pt) (kclass : ℤ → ℤ) (proj : Pt → Pt)
    (detected : List DetMarker) (fmId : ℤ) (objKeyPts : List (Pt × ℤ))
    (st : CorrState) : CorrState :=
  if allPairsFar (objKeyPts.map fun ok => proj ok.1) = true then
    (objKeyPts.zip (objKeyPts.map fun ok => proj ok.1)).foldl
      (fun s pr =>
        processPoint cols rows search normF kpos kclass pr.1.1 pr.1.2 pr.2 s)
      st
  else
    match detected.find? (fun m => decide (m.id = fmId)) with
    | some m =>
      { st with
        p3d := st.p3d ++ (m.keypts.take 4).map (fun p => (p.1, p.2, 0))
        p2d := st.p2d ++ m.corners.take 4 }
    | none => st

/-- The whole per-marker loop of the extended correspondence stage, iterating
over the marker collection in ascending id order (`std::map` order). -/
def corrLoop (cols rows : ℚ) (search : Pt → ℤ × ℚ) (normF : Pt → Pt → ℚ)
    (kpos : ℤ → Pt) (kclass : ℤ → ℤ) (proj : Pt → Pt)
    (detected : List DetMarker) (collection : List (ℤ × List (Pt × ℤ)))
    (st : CorrState) : CorrState :=
  collection.foldl
    (fun s fm =>
      processMarker cols rows search normF kpos kclass proj detected
        fm.1 fm.2 s)
    st

/-- KD-tree stub used by the concrete counterexamples and witnesses. -/
def cxSearch : Pt → ℤ × ℚ := fun _ => (0, 0)

/-- Norm stub used by the concrete counterexamples and witnesses. -/
def cxNorm : Pt → Pt → ℚ := fun _ _ => 0

/-- Keypoint position table stub for the concrete counterexamples. -/
def cxKpos : ℤ → Pt := fun _ => (0, 0)

/-- Keypoint class table stub for the concrete counterexamples. -/
def cxKclass : ℤ → ℤ := fun _ => 0

/-- A detected marker whose four model keypoints all project far outside a
100×100 image while being far apart from one another. -/
def cxDetected : List DetMarker :=
  [⟨0, [(-100, -100), (-100, -200), (-200, -100), (-200, -200)],
    [(1, 1), (2, 1), (2, 2), (1, 2)]⟩]

/-- The model keypoints of the marker of `cxDetected`, all of class 0. -/
def cxObjKeyPts : List (Pt × ℤ) :=
  [((-100, -100), 0), ((-100, -200), 0), ((-200, -100), 0), ((-200, -200), 0)]

/-- Counterexample to claim C4: a marker that is directly detected and passes
the scale gate (its projected keypoints are pairwise ≥ √150 apart) can
contribute zero correspondence pairs — here all four projections fall outside
the image bounds, so every point is skipped, although the claim promises at
least 4 matched keypoints for gate-passing detected markers. -/
theorem processMarker_gate_pass_zero :
    allPairsFar (cxObjKeyPts.map fun ok => id ok.1) = true ∧
    (cxDetected.find? (fun m => decide (m.id = 0))).isSome = true ∧
    (processMarker 100 100 cxSearch cxNorm cxKpos cxKclass id cxDetected 0
        cxObjKeyPts ⟨[], [], [], []⟩).p2d.length = 0 := by
  refine ⟨by with_unfolding_all rfl, by with_unfolding_all rfl,
    by with_unfolding_all rfl⟩

/-- Claim C4 amended: a marker whose scale gate fails and which was directly
detected contributes exactly its 4 external corners through the fallback; a
marker passing the scale gate contributes one pair per accepted projected
point, which may be fewer than 4 — even zero. -/
theorem processMarker_fallback_four (cols rows : ℚ) (search : Pt → ℤ × ℚ)
    (normF : Pt → Pt → ℚ) (kpos : ℤ → Pt) (kclass : ℤ → ℤ) (proj : Pt → Pt)
    (detected : List DetMarker) (fmId : ℤ) (objKeyPts : List (Pt × ℤ))
    (st : CorrState) (m : DetMarker)
    (hgate : allPairsFar (objKeyPts.map fun ok => proj ok.1) = false)
    (hfind : detected.find? (fun m => decide (m.id = fmId)) = some m)
    (hk : 4 ≤ m.keypts.length) (hc : 4 ≤ m.corners.length) :
    (processMarker cols rows search normF kpos kclass proj detected fmId
        objKeyPts st).p2d.length = st.p2d.length + 4 ∧
    (processMarker cols rows search normF kpos kclass proj detected fmId
        objKeyPts st).p3d.length = st.p3d.length + 4 := by
  unfold processMarker
  rw [if_neg (by simp [hgate])]
  simp only [hfind]
  constructor
  · show (st.p2d ++ m.corners.take 4).length = st.p2d.length + 4
    rw [List.length_append, List.length_take]
    omega
  · show (st.p3d ++ (m.keypts.take 4).map fun p : Pt => (p.1, p.2, (0 : ℚ))).length
        = st.p3d.length + 4
    rw [List.length_append, List.length_map, List.length_take]
    omega

/-- Gate-failing detected marker used to witness the amended claim C4. -/
def cxFallbackMarker : DetMarker :=
  ⟨3, [(0, 0), (1, 0), (1, 1), (0, 1)], [(10, 10), (20, 10), (20, 20), (10, 20)]⟩

/-- Detection list used to witness the amended claim C4. -/
def cxDetected2 : List DetMarker := [cxFallbackMarker]

/-- Model keypoints closer than √150, so the scale gate fails. -/
def cxObjKeyPts2 : List (Pt × ℤ) := [((0, 0), 0), ((1, 0), 0)]

theorem processMarker_fallback_four_witness :
    (allPairsFar (cxObjKeyPts2.map fun ok => id ok.1) = false ∧
      cxDetected2.find? (fun m => decide (m.id = 3)) = some cxFallbackMarker) ∧
    (processMarker 100 100 cxSearch cxNorm cxKpos cxKclass id cxDetected2 3
        cxObjKeyPts2 ⟨[], [], [], []⟩).p2d.length = 0 + 4 ∧
    (processMarker 100 100 cxSearch cxNorm cxKpos cxKclass id cxDetected2 3
        cxObjKeyPts2 ⟨[], [], [], []⟩).p3d.length = 0 + 4 :=
  ⟨⟨by with_unfolding_all rfl, by with_unfolding_all rfl⟩,
    processMarker_fallback_four 100 100 cxSearch cxNorm cxKpos cxKclass id
      cxDetected2 3 cxObjKeyPts2 ⟨[], [], [], []⟩ cxFallbackMarker
      (by with_unfolding_all rfl) (by with_unfolding_all rfl)
      (by decide) (by decide)⟩

/-- Two detected markers, both failing the scale gate, sharing the image
corner (1, 1). -/
def c5Detected : List DetMarker :=
  [⟨0, [(0, 0), (1, 0), (1, 1), (0, 1)], [(1, 1), (5, 1), (5, 5), (1, 5)]⟩,
   ⟨1, [(0, 0), (2, 0), (2, 2), (0, 2)], [(1, 1), (9, 1), (9, 9), (1, 9)]⟩]

/-- Collection entries whose projected keypoints are 1 px apart, so both
markers fail the scale gate and take the fallback path. -/
def c5Coll : List (ℤ × List (Pt × ℤ)) :=
  [(0, [((0, 0), 0), ((1, 0), 0)]), (1, [((0, 0), 0), ((1, 0), 0)])]

/-- Counterexample to claim C5: the fallback path appends external corners
without any deduplication, so the final `p2d` list can contain the same 2-D
value twice — here both detected markers carry the corner (1, 1). The joint
subpixel refinement maps equal input points to equal outputs, so the
duplicate survives it. -/
theorem corrLoop_p2d_duplicate :
    ¬ (corrLoop 100 100 cxSearch cxNorm cxKpos cxKclass id c5Detected c5Coll
        ⟨[], [], [], []⟩).p2d.Nodup := by
  with_unfolding_all decide

theorem processPoint_nodup (cols rows : ℚ) (search : Pt → ℤ × ℚ)
    (normF : Pt → Pt → ℚ) (kpos : ℤ → Pt) (kclass : ℤ → ℤ)
    (objPt : Pt) (objClass : ℤ) (imgPt : Pt) (st : CorrState)
    (h : st.nearestIdxList.Nodup) :
    (processPoint cols rows search normF kpos kclass objPt objClass imgPt
      st).nearestIdxList.Nodup := by
  unfold processPoint
  split
  · split
    · exact h
    · split
      · split
        · split
          · exact h
          · exact h
        · show (st.nearestIdxList ++ [(search imgPt).1]).Nodup
          rw [List.nodup_append]
          refine ⟨h, List.nodup_singleton _, ?_⟩
          intro a ha hmem
          have hall := List.findIdx?_eq_none_iff.mp (by assumption) a ha
          simp only [decide_eq_false_iff_not] at hall
          simp only [List.mem_singleton] at hmem
          exact hall hmem
      · exact h
  · exact h

theorem foldl_processPoint_nodup (cols rows : ℚ) (search : Pt → ℤ × ℚ)
    (normF : Pt → Pt → ℚ) (kpos : ℤ → Pt) (kclass : ℤ → ℤ)
    (prs : List ((Pt × ℤ) × Pt)) (st : CorrState)
    (h : st.nearestIdxList.Nodup) :
    (prs.foldl
      (fun s pr =>
        processPoint cols rows search normF kpos kclass pr.1.1 pr.1.2 pr.2 s)
      st).nearestIdxList.Nodup := by
  induction prs generalizing st with
  | nil => exact h
  | cons pr t ih =>
    exact ih _ (processPoint_nodup cols rows search normF kpos kclass
      pr.1.1 pr.1.2 pr.2 st h)

theorem processMarker_nodup (cols rows : ℚ) (search : Pt → ℤ × ℚ)
    (normF : Pt → Pt → ℚ) (kpos : ℤ → Pt) (kclass : ℤ → ℤ) (proj : Pt → Pt)
    (detected : List DetMarker) (fmId : ℤ) (objKeyPts : List (Pt × ℤ))
    (st : CorrState) (h : st.nearestIdxList.Nodup) :
    (processMarker cols rows search normF kpos kclass proj detected fmId
      objKeyPts st).nearestIdxList.Nodup := by
  unfold processMarker
  split
  · exact foldl_processPoint_nodup cols rows search normF kpos kclass _ st h
  · split
    · exact h
    · exact h

/-- Claim C5 amended: the index-based deduplication does keep the claimed
FAST-keypoint indices pairwise distinct throughout the loop (so the
kd-matched entries refer to pairwise distinct keypoints), but the fallback
external corners are appended without deduplication, and the final `p2d`
value multiset can contain duplicates. -/
theorem corrLoop_nearestIdx_nodup (cols rows : ℚ) (search : Pt → ℤ × ℚ)
    (normF : Pt → Pt → ℚ) (kpos : ℤ → Pt) (kclass : ℤ → ℤ) (proj : Pt → Pt)
    (detected : List DetMarker) (collection : List (ℤ × List (Pt × ℤ)))
    (st : CorrState) (h : st.nearestIdxList.Nodup) :
    (corrLoop cols rows search normF kpos kclass proj detected collection
      st).nearestIdxList.Nodup := by
  unfold corrLoop
  induction collection generalizing st with
  | nil => exact h
  | cons fm t ih =>
    exact ih _ (processMarker_nodup cols rows search normF kpos kclass proj
      detected fm.1 fm.2 st h)

theorem corrLoop_nearestIdx_nodup_witness :
    ([] : List ℤ).Nodup ∧
    (corrLoop 100 100 cxSearch cxNorm cxKpos cxKclass id c5Detected c5Coll
      ⟨[], [], [], []⟩).nearestIdxList.Nodup :=
  ⟨List.nodup_nil,
    corrLoop_nearestIdx_nodup 100 100 cxSearch cxNorm cxKpos cxKclass id
      c5Detected c5Coll ⟨[], [], [], []⟩ List.nodup_nil⟩

/-- A catalogue marker as `convertToMeters` touches it: only the keypoint
positions matter for rescaling. -/
structure FMarkerRec where
  keypts : List Pt
  deriving DecidableEq

/-- Exact square root of a nonnegative rational that is a square
(numerator and denominator perfect squares); models `cv::norm` on the
catalogue corner data, where the difference vector always has a zero
component so the root is exact. -/
def ratSqrt (q : ℚ) : ℚ := (Nat.sqrt q.num.toNat : ℚ) / (Nat.sqrt q.den : ℚ)

/-- `FractalMarker::getMarkerSize`: the Euclidean distance between the first
two keypoints (the top-left and top-right external corners). -/
def getMarkerSize (m : FMarkerRec) : ℚ :=
  ratSqrt (sqDist (m.keypts.getD 0 (0, 0)) (m.keypts.getD 1 (0, 0)))

/-- The marker-set state `convertToMeters` reads and writes: the id-keyed
collection (`std::map` in ascending key order), the unit tag `mInfoType`
(-1 NONE, 0 PIX, 1 METERS, 2 NORMALIZED) and the external marker id. -/
structure FMarkerSet where
  collection : List (ℤ × FMarkerRec)
  mInfoType : ℤ
  idExternal : ℤ
  deriving DecidableEq

/-- `std::map::at`-style read used for the external marker (present in every
shipped set); absent keys give the default (empty) record. -/
def lookupD (c : List (ℤ × FMarkerRec)) (k : ℤ) : FMarkerRec :=
  match c.find? (fun e => decide (e.1 = k)) with
  | some e => e.2
  | none => ⟨[]⟩

/-- The loop counters 0..n-1 of the scaling loop, read as map keys. -/
def intRange (n : ℕ) : List ℤ := List.map Int.ofNat (List.range n)

/-- `kpt.pt *= pixSizeM` applied to every keypoint of one marker. -/
def scaleRec (f : ℚ) (m : FMarkerRec) : FMarkerRec :=
  ⟨m.keypts.map fun p => (f * p.1, f * p.2)⟩

/-- One iteration of the scaling loop: `fractalMarkerCollection[i]` with
`std::map::operator[]` semantics — the marker with key `i` is scaled when
present; a missing key default-inserts an empty marker (which in C++ also
re-grows the loop bound; the shipped catalogues have keys 0..n-1, so this
branch is never taken there). -/
def scaleAt (f : ℚ) (c : List (ℤ × FMarkerRec)) (i : ℤ) :
    List (ℤ × FMarkerRec) :=
  if c.any (fun e => decide (e.1 = i)) then
    c.map fun e => if e.1 = i then (e.1, scaleRec f e.2) else e
  else c ++ [(i, ⟨[]⟩)]

/-- Shallow embedding of `FractalMarkerSet::convertToMeters`: throw unless the
unit is PIX (0) or NORMALIZED (2) — the C++ throw happens before any mutation,
which the functional embedding encodes by returning only the error value —
then set the unit to METERS (1), compute `pixSizeM = size / getMarkerSize` of
the external marker, and scale marker `i` for each loop counter `i` below the
collection size. -/
def convertToMeters (s : FMarkerSet) (size : ℚ) : Except String FMarkerSet :=
  if ¬ (s.mInfoType = 0 ∨ s.mInfoType = 2) then
    Except.error "The FractalMarkers are not expressed in pixels or normalized"
  else
    Except.ok
      { s with
        mInfoType := 1
        collection :=
          (intRange s.collection.length).foldl
            (scaleAt (size / getMarkerSize (lookupD s.collection s.idExternal)))
            s.collection }

theorem scaleAt_present {f : ℚ} {c : List (ℤ × FMarkerRec)} {i : ℤ}
    (h : i ∈ c.map Prod.fst) :
    scaleAt f c i = c.map fun e => if e.1 = i then (e.1, scaleRec f e.2) else e := by
  unfold scaleAt
  rw [if_pos]
  rw [List.any_eq_true]
  obtain ⟨e, he, hei⟩ := List.mem_map.mp h
  exact ⟨e, he, by simp [hei]⟩

theorem scaleAt_keys {f : ℚ} {c : List (ℤ × FMarkerRec)} {i : ℤ}
    (h : i ∈ c.map Prod.fst) :
    (scaleAt f c i).map Prod.fst = c.map Prod.fst := by
  rw [scaleAt_present h, List.map_map]
  apply List.map_congr_left
  intro e _
  by_cases hei : e.1 = i <;> simp [hei]

theorem intRange_nodup (n : ℕ) : (intRange n).Nodup := by
  unfold intRange
  apply List.Nodup.map_on
  · intro x _ y _ h
    exact Int.ofNat.inj h
  · exact List.nodup_range n

theorem foldl_scaleAt_eq (f : ℚ) :
    ∀ (ks : List ℤ) (c : List (ℤ × FMarkerRec)), ks.Nodup →
      (∀ k ∈ ks, k ∈ c.map Prod.fst) →
      ks.foldl (scaleAt f) c
        = c.map fun e => if e.1 ∈ ks then (e.1, scaleRec f e.2) else e := by
  intro ks
  induction ks with
  | nil =>
    intro c _ _
    simp
  | cons k ks ih =>
    intro c hnd hpres
    have hk : k ∈ c.map Prod.fst := hpres k (List.mem_cons_self k ks)
    have hstep := scaleAt_present (f := f) hk
    rw [List.foldl_cons, ih (scaleAt f c k)
      (List.nodup_cons.mp hnd).2
      (fun j hj => by
        rw [scaleAt_keys hk]
        exact hpres j (List.mem_cons_of_mem k hj)),
      hstep, List.map_map]
    apply List.map_congr_left
    intro e _
    have hknotin : k ∉ ks := (List.nodup_cons.mp hnd).1
    by_cases hek : e.1 = k
    · simp [hek, hknotin, Function.comp, List.mem_cons]
    · by_cases heks : e.1 ∈ ks <;>
        simp [hek, heks, Function.comp, List.mem_cons]

/-- Claim C6: `convertToMeters(size)` raises `UnitError` exactly when the unit
is neither PIX (0) nor NORMALIZED (2) — in particular, once the unit is
METERS (1) every further call errors, so the unit never reverts from METERS —
and otherwise multiplies every keypoint position of every marker by
`size / side_length_of_external_marker` and sets the unit to METERS. Stated
for sets whose collection keys are exactly 0..n-1, as in every shipped
catalogue (the scaling loop indexes the `std::map` by loop counter). -/
theorem convertToMeters_spec (s : FMarkerSet) (size : ℚ)
    (hkeys : s.collection.map Prod.fst = intRange s.collection.length) :
    ((∃ e, convertToMeters s size = Except.error e)
        ↔ ¬ (s.mInfoType = 0 ∨ s.mInfoType = 2)) ∧
    (∀ s', convertToMeters s size = Except.ok s' →
      s'.mInfoType = 1 ∧ s'.idExternal = s.idExternal ∧
      s'.collection = s.collection.map fun e =>
        (e.1, scaleRec
          (size / getMarkerSize (lookupD s.collection s.idExternal)) e.2)) := by
  constructor
  · constructor
    · intro ⟨e, he⟩ hunit
      unfold convertToMeters at he
      rw [if_neg (by exact fun hc => hc hunit)] at he
      exact absurd he (by simp)
    · intro hunit
      refine ⟨"The FractalMarkers are not expressed in pixels or normalized", ?_⟩
      unfold convertToMeters
      rw [if_pos hunit]
  · intro s' hs'
    unfold convertToMeters at hs'
    by_cases hunit : ¬ (s.mInfoType = 0 ∨ s.mInfoType = 2)
    · rw [if_pos hunit] at hs'
      exact absurd hs' (by simp)
    · rw [if_neg hunit] at hs'
      injection hs' with hs''
      subst hs''
      refine ⟨rfl, rfl, ?_⟩
      show (intRange s.collection.length).foldl
          (scaleAt (size / getMarkerSize (lookupD s.collection s.idExternal)))
          s.collection = _
      rw [foldl_scaleAt_eq _ _ s.collection
        (intRange_nodup _)
        (fun k hk => hkeys ▸ hk)]
      apply List.map_congr_left
      intro e he
      have hkmem : e.1 ∈ intRange s.collection.length := by
        rw [← hkeys]
        exact List.mem_map.mpr ⟨e, he, rfl⟩
      rw [if_pos hkmem]

/-- Witness marker set for claim C6: two markers with keys 0 and 1, unit
NORMALIZED, external marker of side 2. -/
def wSet : FMarkerSet where
  collection :=
    [(0, ⟨[(-1, 1), (1, 1), (1, -1), (-1, -1)]⟩), (1, ⟨[(2, 2)]⟩)]
  mInfoType := 2
  idExternal := 0

theorem convertToMeters_spec_witness :
    (wSet.collection.map Prod.fst = intRange wSet.collection.length) ∧
    (((∃ e, convertToMeters wSet 3 = Except.error e)
        ↔ ¬ (wSet.mInfoType = 0 ∨ wSet.mInfoType = 2)) ∧
      (∀ s', convertToMeters wSet 3 = Except.ok s' →
        s'.mInfoType = 1 ∧ s'.idExternal = wSet.idExternal ∧
        s'.collection = wSet.collection.map fun e =>
          (e.1, scaleRec
            (3 / getMarkerSize (lookupD wSet.collection wSet.idExternal))
            e.2))) :=
  ⟨by with_unfolding_all rfl, convertToMeters_spec wSet 3 (by with_unfolding_all rfl)⟩

/-- A FAST keypoint as `kfilter` manipulates it: position, response, and the
`size` field that the filter first sets to 40 and then uses as the erase flag
(-1). -/
structure KPt where
  x : ℚ
  y : ℚ
  resp : ℚ
  size : ℚ
  deriving DecidableEq

/-- Squared pixel distance between two keypoints,
`pow(xpi.x - kpj.x, 2) + pow(kpi.y - kpj.y, 2)`. -/
def kSqDist (a b : KPt) : ℚ :=
  (a.x - b.x) * (a.x - b.x) + (a.y - b.y) * (a.y - b.y)

/-- Out-of-range default for indexed access; the loops never index out of
range (bounds are checked first). -/
def kdef : KPt := ⟨0, 0, 0, 0⟩

/-- First pass of `kfilter`: set every keypoint's size to 40. -/
def kfMark (ks : List KPt) : List KPt := ks.map fun k => { k with size := 40 }

/-- Minimum response, seeded (like the code) with `kpoints[0].response`. -/
def kfMinResp (ks : List KPt) (seed : ℚ) : ℚ :=
  ks.foldl (fun m k => min m k.resp) seed

/-- Maximum response, seeded with `kpoints[0].response`. -/
def kfMaxResp (ks : List KPt) (seed : ℚ) : ℚ :=
  ks.foldl (fun m k => max m k.resp) seed

/-- The response band threshold
`thresoldResp = (maxResp - minResp) * 0.20f + minResp`; the float literal
`0.20f` is modelled as 1/5 (its value only shifts the band imperceptibly and
plays no role in the claims). -/
def kfThresh : List KPt → ℚ
  | [] => 0
  | k0 :: rest =>
    (kfMaxResp (k0 :: rest) k0.resp - kfMinResp (k0 :: rest) k0.resp) * (1 / 5)
      + kfMinResp (k0 :: rest) k0.resp

/-- Inner loop of `kfilter` for outer index `i`, scanning `j = i+1, ...`:
when slots `i` and `j` are closer than squared distance 100, the
higher-response keypoint is copied into slot `i` (the copy carries the whole
keypoint, including its flag) and slot `j` is flagged erased. Encoded with
one unit of fuel per iteration; callers pass `ks.length`, which the loop
bound `j < ks.length` never lets run out. -/
def kfInner : ℕ → List KPt → ℕ → ℕ → List KPt
  | 0, ks, _, _ => ks
  | fuel + 1, ks, i, j =>
    if j < ks.length then
      if kSqDist (ks.getD i kdef) (ks.getD j kdef) < 100 then
        if (ks.getD i kdef).resp < (ks.getD j kdef).resp then
          kfInner fuel
            ((ks.set i (ks.getD j kdef)).set j
              { ks.getD j kdef with size := -1 }) i (j + 1)
        else
          kfInner fuel (ks.set j { ks.getD j kdef with size := -1 }) i (j + 1)
      else kfInner fuel ks i (j + 1)
    else ks

/-- Outer loop of `kfilter`: flag low-response keypoints, then run the
duplicate scan from `i + 1`. -/
def kfOuter : ℕ → List KPt → ℚ → ℕ → List KPt
  | 0, ks, _, _ => ks
  | fuel + 1, ks, t, i =>
    if i < ks.length then
      if (ks.getD i kdef).resp < t then
        kfOuter fuel (ks.set i { ks.getD i kdef with size := -1 }) t (i + 1)
      else
        kfOuter fuel (kfInner ks.length ks i (i + 1)) t (i + 1)
    else ks

/-- The erase pass, `std::remove_if` of every keypoint whose size is -1. -/
def kfErase (ks : List KPt) : List KPt := ks.filter fun k => decide (k.size ≠ -1)

/-- Total embedding of `FractalMarkerDetector::kfilter`: the function reads
`kpoints[0].response` before any emptiness check, so the empty list is the
out-of-bounds error branch, modelled as `none`. -/
def kfilterTotal : List KPt → Option (List KPt)
  | [] => none
  | k0 :: rest =>
    some (kfErase (kfOuter (k0 :: rest).length (kfMark (k0 :: rest))
      (kfThresh (k0 :: rest)) 0))

theorem getD_set_ne {l : List KPt} {i m : ℕ} {a : KPt} (h : i ≠ m) :
    (l.set i a).getD m kdef = l.getD m kdef := by
  simp [List.getD_eq_getElem?_getD, List.getElem?_set_ne h]

theorem getD_set_self {l : List KPt} {i : ℕ} {a : KPt} (h : i < l.length) :
    (l.set i a).getD i kdef = a := by
  simp [List.getD_eq_getElem?_getD, List.getElem?_set_self h]

theorem kfInner_length : ∀ (fuel : ℕ) (ks : List KPt) (i j : ℕ),
    (kfInner fuel ks i j).length = ks.length := by
  intro fuel
  induction fuel with
  | zero => intro ks i j; rfl
  | succ fuel ih =>
    intro ks i j
    unfold kfInner
    split
    · split
      · split
        · rw [ih]; simp
        · rw [ih]; simp
      · exact ih ks i (j + 1)
    · rfl

theorem kfInner_untouched : ∀ (fuel : ℕ) (ks : List KPt) (i j m : ℕ),
    m < j → m ≠ i →
    (kfInner fuel ks i j).getD m kdef = ks.getD m kdef := by
  intro fuel
  induction fuel with
  | zero => intro ks i j m _ _; rfl
  | succ fuel ih =>
    intro ks i j m hmj hmi
    unfold kfInner
    split
    · split
      · split
        · rw [ih _ _ _ _ (by omega) hmi,
            getD_set_ne (by omega), getD_set_ne (fun he => hmi he.symm)]
        · rw [ih _ _ _ _ (by omega) hmi, getD_set_ne (by omega)]
      · exact ih ks i (j + 1) m (by omega) hmi
    · rfl

theorem kfInner_resp_mono : ∀ (fuel : ℕ) (ks : List KPt) (i j : ℕ) (t : ℚ),
    i < j → i < ks.length → t ≤ (ks.getD i kdef).resp →
    t ≤ ((kfInner fuel ks i j).getD i kdef).resp := by
  intro fuel
  induction fuel with
  | zero => intro ks i j t _ _ h; exact h
  | succ fuel ih =>
    intro ks i j t hij hilen h
    unfold kfInner
    split
    · split
      · split
        · apply ih _ _ _ _ (by omega)
          · simp [hilen]
          · rw [getD_set_ne (by omega), getD_set_self hilen]
            next hresp => exact le_of_lt (lt_of_le_of_lt h hresp)
        · apply ih _ _ _ _ (by omega)
          · simp [hilen]
          · rw [getD_set_ne (by omega)]
            exact h
      · exact ih ks i (j + 1) t (by omega) hilen h
    · exact h

/-- Post-loop response invariant: every slot below the scan front is either
flagged erased or has response at least the threshold. -/
def respOK (t : ℚ) (k : KPt) : Prop := k.size = -1 ∨ t ≤ k.resp

theorem kfOuter_respOK : ∀ (fuel : ℕ) (ks : List KPt) (t : ℚ) (i : ℕ),
    ks.length ≤ fuel + i →
    (∀ m, m < i → respOK t (ks.getD m kdef)) →
    ∀ m, m < (kfOuter fuel ks t i).length →
      respOK t ((kfOuter fuel ks t i).getD m kdef) := by
  intro fuel
  induction fuel with
  | zero =>
    intro ks t i hfuel hinv m hm
    have hm' : m < ks.length := hm
    exact hinv m (by omega)
  | succ fuel ih =>
    intro ks t i hfuel hinv m hm
    by_cases hlen : i < ks.length
    · by_cases hresp : (ks.getD i kdef).resp < t
      · have heq : kfOuter (fuel + 1) ks t i
            = kfOuter fuel (ks.set i { ks.getD i kdef with size := -1 }) t
              (i + 1) := by
          simp only [kfOuter]; rw [if_pos hlen, if_pos hresp]
        rw [heq] at hm ⊢
        refine ih _ t (i + 1) (by simp only [List.length_set]; omega) ?_ m hm
        intro q hq
        by_cases hqi : q = i
        · subst hqi
          rw [getD_set_self hlen]
          exact Or.inl rfl
        · rw [getD_set_ne (fun he => hqi he.symm)]
          exact hinv q (by omega)
      · have heq : kfOuter (fuel + 1) ks t i
            = kfOuter fuel (kfInner ks.length ks i (i + 1)) t (i + 1) := by
          simp only [kfOuter]; rw [if_pos hlen, if_neg hresp]
        rw [heq] at hm ⊢
        refine ih _ t (i + 1) (by rw [kfInner_length]; omega) ?_ m hm
        intro q hq
        by_cases hqi : q = i
        · subst hqi
          exact Or.inr (kfInner_resp_mono ks.length ks q (q + 1) t (by omega)
            hlen (le_of_not_lt hresp))
        · rw [kfInner_untouched _ _ _ _ _ (by omega) hqi]
          exact hinv q (by omega)
    · have heq : kfOuter (fuel + 1) ks t i = ks := by
        unfold kfOuter; rw [if_neg hlen]
      rw [heq] at hm ⊢
      exact hinv m (by omega)

/-- Claim C7 amended: every keypoint surviving `kfilter` has response at
least the band threshold `minResp + 0.2 * (maxResp - minResp)`; the claimed
pairwise 10-pixel separation of the output does NOT hold in general — the
in-place replacement of a kept keypoint by a close higher-response one can
reintroduce a pair closer than 10 px. -/
theorem kfilter_resp_bound (ks out : List KPt)
    (h : kfilterTotal ks = some out) :
    ∀ k ∈ out, kfThresh ks ≤ k.resp := by
  intro k hk
  cases ks with
  | nil => exact absurd h (by simp [kfilterTotal])
  | cons k0 rest =>
    unfold kfilterTotal at h
    injection h with h
    subst h
    obtain ⟨hkmem, hflag⟩ := List.mem_filter.mp hk
    obtain ⟨n, hn, hget⟩ := List.mem_iff_getElem.mp hkmem
    have hgetD : (kfOuter (k0 :: rest).length (kfMark (k0 :: rest))
        (kfThresh (k0 :: rest)) 0).getD n kdef = k := by
      rw [List.getD_eq_getElem?_getD, List.getElem?_eq_getElem hn, hget]
      rfl
    have hOK := kfOuter_respOK (k0 :: rest).length (kfMark (k0 :: rest))
      (kfThresh (k0 :: rest)) 0 (by simp [kfMark])
      (fun m hm => absurd hm (by omega)) n hn
    rw [hgetD] at hOK
    rcases hOK with hflag' | hresp
    · rw [hflag'] at hflag
      exact absurd hflag (by simp)
    · exact hresp

/-- The four keypoints of the counterexample run: responses 100, 103, 102, 0
(threshold 20.6); the keypoint at (9, 0) replaces the one at (0, 0) after the
pair at distance 18 was already accepted. -/
def c7Input : List KPt :=
  [⟨0, 0, 100, 7⟩, ⟨18, 0, 103, 7⟩, ⟨9, 0, 102, 7⟩, ⟨100, 100, 0, 7⟩]

/-- Counterexample to claim C7: the output of `kfilter` can contain two
keypoints closer than 10 px — here (9, 0) and (18, 0), at squared distance
81 < 100. The replacement of slot 0 by the keypoint at (9, 0) happens after
slot 0 was already compared with (18, 0). -/
theorem kfilter_close_pair :
    kfilterTotal c7Input
      = some [⟨9, 0, 102, 40⟩, ⟨18, 0, 103, 40⟩] ∧
    kSqDist ⟨9, 0, 102, 40⟩ ⟨18, 0, 103, 40⟩ < 100 := by
  constructor
  · with_unfolding_all rfl
  · with_unfolding_all decide

theorem kfilter_resp_bound_witness :
    kfilterTotal c7Input = some [⟨9, 0, 102, 40⟩, ⟨18, 0, 103, 40⟩] ∧
    ∀ k ∈ [(⟨9, 0, 102, 40⟩ : KPt), ⟨18, 0, 103, 40⟩],
      kfThresh c7Input ≤ k.resp :=
  ⟨by with_unfolding_all rfl,
    kfilter_resp_bound c7Input [⟨9, 0, 102, 40⟩, ⟨18, 0, 103, 40⟩]
      (by with_unfolding_all rfl)⟩

/-- The call structure of `detect(img, p3d, p2d)` around `kfilter`: the
extended correspondence stage runs iff the primary detector returned at least
one marker, and then `kfilter` is invoked on the FAST keypoint list with no
emptiness check. -/
def extendedStageKfilter (detected : List ℤ) (kpoints : List KPt) :
    Option (List KPt) :=
  if detected.isEmpty then some [] else kfilterTotal kpoints

/-- Claim C10: `kfilter` reads `kpoints[0].response` before any emptiness
check, so the total embedding of `kfilter` errors (none) on the empty list;
`detect` invokes it whenever at least one marker was detected, even when FAST
returned zero keypoints, so the error branch is reachable from the public
interface — and unreachable when nothing was detected. -/
theorem kfilter_empty_reachable :
    kfilterTotal [] = none ∧
    extendedStageKfilter [7] [] = none ∧
    extendedStageKfilter [] [] = some [] :=
  ⟨rfl, rfl, rfl⟩

/-- Shallow embedding of the adaptive-threshold window computation of
`detect`: `adaptiveWindowSize = max(int(3), int(15*float(cols)/1920.))`,
incremented when even. The double-precision quotient `15*cols/1920 = cols/128`
is exactly representable for any realistic width, so the `int` cast truncates
the exact value, i.e. Nat division. -/
def adaptiveWindowSize (cols : ℕ) : ℕ :=
  if max 3 (15 * cols / 1920) % 2 = 0 then max 3 (15 * cols / 1920) + 1
  else max 3 (15 * cols / 1920)

/-- The window size as claim C8 words it: `max(3, round(15*cols/1920))`
coerced to the next odd number, with rounding as `floor(x + 1/2)`. -/
def roundWindowSize (cols : ℕ) : ℤ :=
  if max 3 ⌊((15 * cols : ℕ) : ℚ) / 1920 + 1 / 2⌋ % 2 = 0 then
    max 3 ⌊((15 * cols : ℕ) : ℚ) / 1920 + 1 / 2⌋ + 1
  else max 3 ⌊((15 * cols : ℕ) : ℚ) / 1920 + 1 / 2⌋

/-- The window size with truncation in place of rounding (the amendment of
claim C8). -/
def truncWindowSize (cols : ℕ) : ℤ :=
  if max 3 ⌊((15 * cols : ℕ) : ℚ) / 1920⌋ % 2 = 0 then
    max 3 ⌊((15 * cols : ℕ) : ℚ) / 1920⌋ + 1
  else max 3 ⌊((15 * cols : ℕ) : ℚ) / 1920⌋

/-- Counterexample to claim C8: the code truncates `15*cols/1920` where the
claim rounds. At cols = 1000 the exact quotient is 7.8125: the code uses
window size 7, the claimed formula gives 8, coerced to 9. -/
theorem adaptiveWindowSize_1000 :
    adaptiveWindowSize 1000 = 7 ∧ roundWindowSize 1000 = 9 := by
  constructor
  · decide
  · unfold roundWindowSize
    rw [show ((15 * 1000 : ℕ) : ℚ) / 1920 + 1 / 2 = 133 / 16 by norm_num]
    rw [show ⌊(133 / 16 : ℚ)⌋ = 8 from by
      rw [show ((133 : ℚ) / 16) = ((133 : ℤ) : ℚ) / ((16 : ℕ) : ℚ) by norm_num,
        Rat.floor_intCast_div_natCast]
      norm_num]
    norm_num

/-- Claim C8 amended: the adaptive-threshold window size equals
`max(3, trunc(15*cols/1920))` coerced to the next odd number — truncation
(the integer floor of the exact quotient), not rounding; the result is odd
and at least 3 for every image width. -/
theorem adaptiveWindowSize_eq_trunc (cols : ℕ) :
    (adaptiveWindowSize cols : ℤ) = truncWindowSize cols ∧
    adaptiveWindowSize cols % 2 = 1 ∧ 3 ≤ adaptiveWindowSize cols := by
  have hfloor : ⌊((15 * cols : ℕ) : ℚ) / 1920⌋ = ((15 * cols / 1920 : ℕ) : ℤ) := by
    rw [show (((15 * cols : ℕ) : ℚ)) = (((15 * cols : ℕ) : ℤ) : ℚ) by push_cast; ring,
      show ((1920 : ℚ)) = (((1920 : ℕ) : ℤ) : ℚ) by norm_num]
    rw [show ((((1920 : ℕ) : ℤ) : ℚ)) = (((1920 : ℕ)) : ℚ) by norm_num,
      Rat.floor_intCast_div_natCast]
    push_cast
    omega
  unfold adaptiveWindowSize truncWindowSize
  rw [hfloor]
  refine ⟨?_, ?_, ?_⟩
  · split_ifs with h1 h2 h2 <;> push_cast at * <;> omega
  · split_ifs with h1 <;> omega
  · split_ifs with h1 <;> omega

/-- The final class decision of `assignClass`, as a function of the connected
component count `nc = newLab - 1 - unions.size()`, the above-threshold pixel
count `nZ`, the patch cell count `total = thresIm.total()`, and the
keypoint's previous class id (`cv::KeyPoint::class_id`, -1 as FAST leaves
it): two components choose class 0 or 1 by foreground majority, more than
two choose class 2, and any other count leaves the class unchanged. -/
def classDecision (nc : ℤ) (nZ total : ℕ) (old : ℤ) : ℤ :=
  if nc = 2 then (if total - nZ < nZ then 0 else 1)
  else if 2 < nc then 2 else old

/-- The patch cells in row-major order, as the nested `for y, for x` loops of
`assignClass` scan them. -/
def cells (h w : ℕ) : List (ℕ × ℕ) :=
  (List.range h).flatMap fun y => (List.range w).map fun x => (y, x)

/-- The minimum scan of `assignClass`: `uchar minV = 255`, lowered per pixel. -/
def minVal (im : ℕ × ℕ → ℕ) (h w : ℕ) : ℕ :=
  (cells h w).foldl (fun m q => min m (im q)) 255

/-- The maximum scan of `assignClass`: `uchar maxV = 0`, raised per pixel. -/
def maxVal (im : ℕ × ℕ → ℕ) (h w : ℕ) : ℕ :=
  (cells h w).foldl (fun m q => max m (im q)) 0

/-- The binarized patch of `assignClass`: pixel above
`thres = (maxV + minV) / 2.0` (an exact half-integer in double precision). -/
def thresPatch (im : ℕ × ℕ → ℕ) (h w : ℕ) (p : ℕ × ℕ) : Bool :=
  decide (((maxVal im h w + minVal im h w : ℕ) : ℚ) / 2 < (im p : ℚ))

/-- State of the two-pass labelling: the label grid (0 = unlabeled), the next
fresh label `newLab`, and the key set of the `unions` map. `unions[x] = y`
only ever grows the key set (overwriting an existing key leaves the map size
unchanged) and `nc` reads nothing but `unions.size()`, so the map is
modelled by its keys. -/
structure CCLState where
  labels : ℕ × ℕ → ℕ
  newLab : ℕ
  keys : Finset ℕ

/-- Pointwise update of the label grid. -/
def labelUpdate (f : ℕ × ℕ → ℕ) (p : ℕ × ℕ) (v : ℕ) : ℕ × ℕ → ℕ :=
  fun q => if q = p then v else f q

/-- `lleft_px`: the left neighbour's label when it exists and carries the
same thresholded value, else 0. -/
def leftLab (t : ℕ × ℕ → Bool) (labels : ℕ × ℕ → ℕ) (p : ℕ × ℕ) : ℕ :=
  if 0 < p.2 ∧ t (p.1, p.2 - 1) = t p then labels (p.1, p.2 - 1) else 0

/-- `ltop_px`: the top neighbour's label under the same condition. -/
def topLab (t : ℕ × ℕ → Bool) (labels : ℕ × ℕ → ℕ) (p : ℕ × ℕ) : ℕ :=
  if 0 < p.1 ∧ t (p.1 - 1, p.2) = t p then labels (p.1 - 1, p.2) else 0

/-- One cell of the two-pass union-find labelling of `assignClass`: no
neighbour label means a fresh label; two distinct neighbour labels keep the
smaller and record the larger as a key of `unions`; otherwise the available
label propagates. (The patch has at most 121 cells, far below the range of
the `uchar` label counter, so `newLab` is modelled by ℕ.) -/
def cclStep (t : ℕ × ℕ → Bool) (st : CCLState) (p : ℕ × ℕ) : CCLState :=
  if leftLab t st.labels p = 0 ∧ topLab t st.labels p = 0 then
    { labels := labelUpdate st.labels p st.newLab, newLab := st.newLab + 1,
      keys := st.keys }
  else if leftLab t st.labels p ≠ 0 ∧ topLab t st.labels p ≠ 0 then
    if leftLab t st.labels p < topLab t st.labels p then
      { labels := labelUpdate st.labels p (leftLab t st.labels p),
        newLab := st.newLab, keys := insert (topLab t st.labels p) st.keys }
    else if topLab t st.labels p < leftLab t st.labels p then
      { labels := labelUpdate st.labels p (topLab t st.labels p),
        newLab := st.newLab, keys := insert (leftLab t st.labels p) st.keys }
    else
      { labels := labelUpdate st.labels p (topLab t st.labels p),
        newLab := st.newLab, keys := st.keys }
  else if leftLab t st.labels p ≠ 0 then
    { labels := labelUpdate st.labels p (leftLab t st.labels p),
      newLab := st.newLab, keys := st.keys }
  else
    { labels := labelUpdate st.labels p (topLab t st.labels p),
      newLab := st.newLab, keys := st.keys }

/-- Initial labelling state: all labels 0, `newLab = 1`, empty union map. -/
def cclInit : CCLState := ⟨fun _ => 0, 1, ∅⟩

/-- The labelling state after scanning the whole patch. -/
def cclFinal (im : ℕ × ℕ → ℕ) (h w : ℕ) : CCLState :=
  (cells h w).foldl (cclStep (thresPatch im h w)) cclInit

/-- `int nc = newLab - 1 - unions.size()`, the component count `assignClass`
feeds into the class decision. -/
def computedNC (im : ℕ × ℕ → ℕ) (h w : ℕ) : ℤ :=
  ((cclFinal im h w).newLab : ℤ) - 1 - ((cclFinal im h w).keys.card : ℤ)

/-- The invariant of the labelling loop, for a value assignment `lv` of the
labels: every placed label is in range and carries its cell's thresholded
value; every union key has a smaller label of the same value (so the minimal
label of each value class is never a key); keys are in range. -/
def CCLInv (t : ℕ × ℕ → Bool) (st : CCLState) (lv : ℕ → Bool) : Prop :=
  (∀ q, st.labels q ≠ 0 → st.labels q < st.newLab ∧ lv (st.labels q) = t q) ∧
  (∀ k ∈ st.keys, ∃ m, 1 ≤ m ∧ m < k ∧ lv m = lv k) ∧
  (∀ k ∈ st.keys, 1 ≤ k ∧ k < st.newLab) ∧
  1 ≤ st.newLab

theorem leftLab_spec {t : ℕ × ℕ → Bool} {labels : ℕ × ℕ → ℕ} {N : ℕ}
    {lv : ℕ → Bool} {p : ℕ × ℕ}
    (hV : ∀ q, labels q ≠ 0 → labels q < N ∧ lv (labels q) = t q)
    (h : leftLab t labels p ≠ 0) :
    leftLab t labels p < N ∧ lv (leftLab t labels p) = t p := by
  unfold leftLab at h ⊢
  split at h
  · next hc =>
    rw [if_pos hc]
    obtain ⟨h1, h2⟩ := hV _ h
    exact ⟨h1, by rw [h2, hc.2]⟩
  · exact absurd rfl h

theorem topLab_spec {t : ℕ × ℕ → Bool} {labels : ℕ × ℕ → ℕ} {N : ℕ}
    {lv : ℕ → Bool} {p : ℕ × ℕ}
    (hV : ∀ q, labels q ≠ 0 → labels q < N ∧ lv (labels q) = t q)
    (h : topLab t labels p ≠ 0) :
    topLab t labels p < N ∧ lv (topLab t labels p) = t p := by
  unfold topLab at h ⊢
  split at h
  · next hc =>
    rw [if_pos hc]
    obtain ⟨h1, h2⟩ := hV _ h
    exact ⟨h1, by rw [h2, hc.2]⟩
  · exact absurd rfl h

theorem cclStep_inv {t : ℕ × ℕ → Bool} {st : CCLState} {lv : ℕ → Bool}
    (p : ℕ × ℕ) (h : CCLInv t st lv) :
    ∃ lv2, CCLInv t (cclStep t st p) lv2 := by
  obtain ⟨hV, hK, hU, hN⟩ := h
  unfold cclStep
  split_ifs with h1 h2 h3 h4 h5
  · -- fresh label
    refine ⟨fun m => if m = st.newLab then t p else lv m, ?_, ?_, ?_, ?_⟩
    · intro q hq
      dsimp only at hq ⊢
      unfold labelUpdate at hq ⊢
      split_ifs at hq ⊢ with hqp hc1 hc2
      · exact ⟨by omega, by rw [hqp]⟩
      · exact absurd rfl hc1
      · exact absurd hc2 (by have := (hV q hq).1; omega)
      · obtain ⟨hlt, hlv⟩ := hV q hq
        exact ⟨by omega, hlv⟩
    · intro k hk
      dsimp only at hk ⊢
      obtain ⟨m, hm1, hm2, hm3⟩ := hK k hk
      have hkN := hU k hk
      refine ⟨m, hm1, hm2, ?_⟩
      rw [if_neg (show ¬ m = st.newLab by omega),
        if_neg (show ¬ k = st.newLab by omega), hm3]
    · intro k hk
      dsimp only at hk ⊢
      have := hU k hk
      exact ⟨this.1, by omega⟩
    · dsimp only
      omega
  · -- two labels, left smaller: keep left, key the top label
    obtain ⟨hLs, hLv⟩ := leftLab_spec hV h2.1
    obtain ⟨hTs, hTv⟩ := topLab_spec hV h2.2
    refine ⟨lv, ?_, ?_, ?_, hN⟩
    · intro q hq
      dsimp only at hq ⊢
      unfold labelUpdate at hq ⊢
      split_ifs at hq ⊢ with hqp
      · subst hqp
        exact ⟨hLs, hLv⟩
      · exact hV q hq
    · intro k hk
      dsimp only at hk ⊢
      rcases Finset.mem_insert.mp hk with rfl | hk2
      · exact ⟨leftLab t st.labels p,
          Nat.one_le_iff_ne_zero.mpr h2.1, h3, by rw [hLv, hTv]⟩
      · exact hK k hk2
    · intro k hk
      dsimp only at hk ⊢
      rcases Finset.mem_insert.mp hk with rfl | hk2
      · exact ⟨Nat.one_le_iff_ne_zero.mpr h2.2, hTs⟩
      · exact hU k hk2
  · -- two labels, top smaller: keep top, key the left label
    obtain ⟨hLs, hLv⟩ := leftLab_spec hV h2.1
    obtain ⟨hTs, hTv⟩ := topLab_spec hV h2.2
    refine ⟨lv, ?_, ?_, ?_, hN⟩
    · intro q hq
      dsimp only at hq ⊢
      unfold labelUpdate at hq ⊢
      split_ifs at hq ⊢ with hqp
      · subst hqp
        exact ⟨hTs, hTv⟩
      · exact hV q hq
    · intro k hk
      dsimp only at hk ⊢
      rcases Finset.mem_insert.mp hk with rfl | hk2
      · exact ⟨topLab t st.labels p,
          Nat.one_le_iff_ne_zero.mpr h2.2, h4, by rw [hTv, hLv]⟩
      · exact hK k hk2
    · intro k hk
      dsimp only at hk ⊢
      rcases Finset.mem_insert.mp hk with rfl | hk2
      · exact ⟨Nat.one_le_iff_ne_zero.mpr h2.1, hLs⟩
      · exact hU k hk2
  · -- two equal labels
    obtain ⟨hTs, hTv⟩ := topLab_spec hV h2.2
    refine ⟨lv, ?_, hK, hU, hN⟩
    intro q hq
    dsimp only at hq ⊢
    unfold labelUpdate at hq ⊢
    split_ifs at hq ⊢ with hqp
    · subst hqp
      exact ⟨hTs, hTv⟩
    · exact hV q hq
  · -- only the left label
    obtain ⟨hLs, hLv⟩ := leftLab_spec hV h5
    refine ⟨lv, ?_, hK, hU, hN⟩
    intro q hq
    dsimp only at hq ⊢
    unfold labelUpdate at hq ⊢
    split_ifs at hq ⊢ with hqp
    · subst hqp
      exact ⟨hLs, hLv⟩
    · exact hV q hq
  · -- only the top label
    have hT0 : topLab t st.labels p ≠ 0 := by
      intro hz
      have hl0 : leftLab t st.labels p = 0 := by omega
      exact h1 ⟨hl0, hz⟩
    obtain ⟨hTs, hTv⟩ := topLab_spec hV hT0
    refine ⟨lv, ?_, hK, hU, hN⟩
    intro q hq
    dsimp only at hq ⊢
    unfold labelUpdate at hq ⊢
    split_ifs at hq ⊢ with hqp
    · subst hqp
      exact ⟨hTs, hTv⟩
    · exact hV q hq

theorem cclFold_inv (t : ℕ × ℕ → Bool) :
    ∀ (l : List (ℕ × ℕ)) (st : CCLState) (lv : ℕ → Bool), CCLInv t st lv →
      ∃ lv2, CCLInv t (l.foldl (cclStep t) st) lv2 := by
  intro l
  induction l with
  | nil => intro st lv h; exact ⟨lv, h⟩
  | cons c rest ih =>
    intro st lv h
    obtain ⟨lv2, h2⟩ := cclStep_inv c h
    exact ih _ lv2 h2

theorem cclStep_newLab_ge {t : ℕ × ℕ → Bool} (st : CCLState) (p : ℕ × ℕ) :
    st.newLab ≤ (cclStep t st p).newLab := by
  unfold cclStep
  split_ifs <;> simp

theorem labelUpdate_nz {f : ℕ × ℕ → ℕ} {p q : ℕ × ℕ} {v : ℕ}
    (hv : v ≠ 0) (h : q = p ∨ f q ≠ 0) : labelUpdate f p v q ≠ 0 := by
  unfold labelUpdate
  by_cases hqp : q = p
  · rw [if_pos hqp]
    exact hv
  · rw [if_neg hqp]
    rcases h with rfl | hq
    · exact absurd rfl hqp
    · exact hq

theorem cclStep_labels_nz {t : ℕ × ℕ → Bool} {st : CCLState} {p q : ℕ × ℕ}
    (hN : 1 ≤ st.newLab) (h : q = p ∨ st.labels q ≠ 0) :
    (cclStep t st p).labels q ≠ 0 := by
  unfold cclStep
  split_ifs with h1 h2 h3 h4 h5 <;> dsimp only
  · exact labelUpdate_nz (by omega) h
  · exact labelUpdate_nz h2.1 h
  · exact labelUpdate_nz h2.2 h
  · exact labelUpdate_nz h2.2 h
  · exact labelUpdate_nz h5 h
  · refine labelUpdate_nz ?_ h
    intro hz
    have hl0 : leftLab t st.labels p = 0 := by omega
    exact h1 ⟨hl0, hz⟩

theorem cclFold_nz (t : ℕ × ℕ → Bool) :
    ∀ (l : List (ℕ × ℕ)) (st : CCLState), 1 ≤ st.newLab →
      ∀ q, (q ∈ l ∨ st.labels q ≠ 0) →
        (l.foldl (cclStep t) st).labels q ≠ 0 := by
  intro l
  induction l with
  | nil =>
    intro st _ q hq
    rcases hq with hq | hq
    · exact absurd hq (List.not_mem_nil q)
    · exact hq
  | cons c rest ih =>
    intro st hN q hq
    rw [List.foldl_cons]
    have hN2 : 1 ≤ (cclStep t st c).newLab :=
      le_trans hN (cclStep_newLab_ge st c)
    rcases hq with hq | hq
    · rcases List.mem_cons.mp hq with rfl | hq2
      · exact ih _ hN2 q (Or.inr (cclStep_labels_nz hN (Or.inl rfl)))
      · exact ih _ hN2 q (Or.inl hq2)
    · exact ih _ hN2 q (Or.inr (cclStep_labels_nz hN (Or.inr hq)))

/-- Component-count lower bound of the two-pass labelling: if the thresholded
patch contains both values, `nc = newLab - 1 - unions.size()` is at least 2,
because every union key exceeds a smaller label of the same value and so the
minimal label of each of the two value classes is never a key. -/
theorem ccl_nc_ge_two (t : ℕ × ℕ → Bool) (l : List (ℕ × ℕ))
    (pT pF : ℕ × ℕ) (hTm : pT ∈ l) (hFm : pF ∈ l)
    (hTv : t pT = true) (hFv : t pF = false) :
    2 ≤ ((l.foldl (cclStep t) cclInit).newLab : ℤ) - 1 -
      ((l.foldl (cclStep t) cclInit).keys.card : ℤ) := by
  have hInit : CCLInv t cclInit (fun _ => false) := by
    refine ⟨?_, ?_, ?_, le_refl 1⟩
    · intro q hq; exact absurd rfl hq
    · intro k hk; exact absurd hk (Finset.not_mem_empty k)
    · intro k hk; exact absurd hk (Finset.not_mem_empty k)
  obtain ⟨lv, hInv⟩ := cclFold_inv t l cclInit _ hInit
  obtain ⟨hV, hK, hU, hN⟩ := hInv
  have hTnz : (l.foldl (cclStep t) cclInit).labels pT ≠ 0 :=
    cclFold_nz t l cclInit (le_refl 1) pT (Or.inl hTm)
  have hFnz : (l.foldl (cclStep t) cclInit).labels pF ≠ 0 :=
    cclFold_nz t l cclInit (le_refl 1) pF (Or.inl hFm)
  obtain ⟨hTlt, hTlv⟩ := hV _ hTnz
  obtain ⟨hFlt, hFlv⟩ := hV _ hFnz
  set F := l.foldl (cclStep t) cclInit with hF
  set ST := (Finset.Ico 1 F.newLab).filter (fun m => lv m = true) with hSTd
  set SF := (Finset.Ico 1 F.newLab).filter (fun m => lv m = false) with hSFd
  have hTmem : F.labels pT ∈ ST :=
    Finset.mem_filter.mpr ⟨Finset.mem_Ico.mpr
      ⟨Nat.one_le_iff_ne_zero.mpr hTnz, hTlt⟩, by rw [hTlv, hTv]⟩
  have hFmem : F.labels pF ∈ SF :=
    Finset.mem_filter.mpr ⟨Finset.mem_Ico.mpr
      ⟨Nat.one_le_iff_ne_zero.mpr hFnz, hFlt⟩, by rw [hFlv, hFv]⟩
  have hSTne : ST.Nonempty := ⟨_, hTmem⟩
  have hSFne : SF.Nonempty := ⟨_, hFmem⟩
  have hmTS : ST.min' hSTne ∈ ST := Finset.min'_mem ST hSTne
  have hmFS : SF.min' hSFne ∈ SF := Finset.min'_mem SF hSFne
  have hmTIco := (Finset.mem_filter.mp hmTS).1
  have hmTlv : lv (ST.min' hSTne) = true := (Finset.mem_filter.mp hmTS).2
  have hmFIco := (Finset.mem_filter.mp hmFS).1
  have hmFlv : lv (SF.min' hSFne) = false := (Finset.mem_filter.mp hmFS).2
  have hmTN := (Finset.mem_Ico.mp hmTIco).2
  have hmFN := (Finset.mem_Ico.mp hmFIco).2
  have hmTnotk : ST.min' hSTne ∉ F.keys := by
    intro hk
    obtain ⟨m, hm1, hm2, hm3⟩ := hK _ hk
    have hmem : m ∈ ST :=
      Finset.mem_filter.mpr ⟨Finset.mem_Ico.mpr ⟨hm1, by omega⟩,
        by rw [hm3, hmTlv]⟩
    have := Finset.min'_le ST m hmem
    omega
  have hmFnotk : SF.min' hSFne ∉ F.keys := by
    intro hk
    obtain ⟨m, hm1, hm2, hm3⟩ := hK _ hk
    have hmem : m ∈ SF :=
      Finset.mem_filter.mpr ⟨Finset.mem_Ico.mpr ⟨hm1, by omega⟩,
        by rw [hm3, hmFlv]⟩
    have := Finset.min'_le SF m hmem
    omega
  have hne : ST.min' hSTne ≠ SF.min' hSFne := by
    intro he
    rw [he, hmFlv] at hmTlv
    exact Bool.false_ne_true hmTlv
  have hsub : F.keys ⊆
      Finset.Ico 1 F.newLab \ {ST.min' hSTne, SF.min' hSFne} := by
    intro k hk
    rw [Finset.mem_sdiff]
    refine ⟨Finset.mem_Ico.mpr ⟨(hU k hk).1, (hU k hk).2⟩, ?_⟩
    rw [Finset.mem_insert, Finset.mem_singleton]
    rintro (rfl | rfl)
    · exact hmTnotk hk
    · exact hmFnotk hk
  have hpair : ({ST.min' hSTne, SF.min' hSFne} : Finset ℕ)
      ⊆ Finset.Ico 1 F.newLab := by
    intro k hk
    rw [Finset.mem_insert, Finset.mem_singleton] at hk
    rcases hk with rfl | rfl
    · exact hmTIco
    · exact hmFIco
  have hcard2 : ({ST.min' hSTne, SF.min' hSFne} : Finset ℕ).card = 2 :=
    Finset.card_pair hne
  have hkcard : F.keys.card ≤ (Finset.Ico 1 F.newLab).card - 2 := by
    have hle := Finset.card_le_card hsub
    rwa [Finset.card_sdiff hpair, hcard2] at hle
  have hIco : (Finset.Ico 1 F.newLab).card = F.newLab - 1 := Nat.card_Ico 1 _
  have hN3 : 3 ≤ F.newLab := by
    have hle := Finset.card_le_card hpair
    rw [hcard2, hIco] at hle
    omega
  rw [hIco] at hkcard
  omega

theorem foldl_min_le_seed (im : ℕ × ℕ → ℕ) :
    ∀ (l : List (ℕ × ℕ)) (s : ℕ), l.foldl (fun m q => min m (im q)) s ≤ s := by
  intro l
  induction l with
  | nil => intro s; exact le_refl s
  | cons c rest ih =>
    intro s
    rw [List.foldl_cons]
    exact le_trans (ih (min s (im c))) (min_le_left _ _)

theorem foldl_min_le_mem (im : ℕ × ℕ → ℕ) :
    ∀ (l : List (ℕ × ℕ)) (s : ℕ) (p : ℕ × ℕ), p ∈ l →
      l.foldl (fun m q => min m (im q)) s ≤ im p := by
  intro l
  induction l with
  | nil => intro s p hp; exact absurd hp (List.not_mem_nil p)
  | cons c rest ih =>
    intro s p hp
    rw [List.foldl_cons]
    rcases List.mem_cons.mp hp with rfl | hp2
    · exact le_trans (foldl_min_le_seed im rest (min s (im p)))
        (min_le_right _ _)
    · exact ih _ p hp2

theorem foldl_min_attains (im : ℕ × ℕ → ℕ) :
    ∀ (l : List (ℕ × ℕ)) (s : ℕ),
      l.foldl (fun m q => min m (im q)) s = s ∨
      ∃ p ∈ l, l.foldl (fun m q => min m (im q)) s = im p := by
  intro l
  induction l with
  | nil => intro s; exact Or.inl rfl
  | cons c rest ih =>
    intro s
    rw [List.foldl_cons]
    rcases le_total s (im c) with hle | hle
    · rw [min_eq_left hle]
      rcases ih s with he | ⟨p, hp, he⟩
      · exact Or.inl he
      · exact Or.inr ⟨p, List.mem_cons_of_mem c hp, he⟩
    · rw [min_eq_right hle]
      rcases ih (im c) with he | ⟨p, hp, he⟩
      · exact Or.inr ⟨c, List.mem_cons_self c rest, he⟩
      · exact Or.inr ⟨p, List.mem_cons_of_mem c hp, he⟩

theorem foldl_max_ge_mem (im : ℕ × ℕ → ℕ) :
    ∀ (l : List (ℕ × ℕ)) (s : ℕ) (p : ℕ × ℕ), p ∈ l →
      im p ≤ l.foldl (fun m q => max m (im q)) s := by
  have hseed : ∀ (l : List (ℕ × ℕ)) (s : ℕ),
      s ≤ l.foldl (fun m q => max m (im q)) s := by
    intro l
    induction l with
    | nil => intro s; exact le_refl s
    | cons c rest ih =>
      intro s
      rw [List.foldl_cons]
      exact le_trans (le_max_left _ _) (ih (max s (im c)))
  intro l
  induction l with
  | nil => intro s p hp; exact absurd hp (List.not_mem_nil p)
  | cons c rest ih =>
    intro s p hp
    rw [List.foldl_cons]
    rcases List.mem_cons.mp hp with rfl | hp2
    · exact le_trans (le_max_right _ _) (hseed rest (max s (im p)))
    · exact ih _ p hp2

theorem foldl_max_attains (im : ℕ × ℕ → ℕ) :
    ∀ (l : List (ℕ × ℕ)) (s : ℕ),
      l.foldl (fun m q => max m (im q)) s = s ∨
      ∃ p ∈ l, l.foldl (fun m q => max m (im q)) s = im p := by
  intro l
  induction l with
  | nil => intro s; exact Or.inl rfl
  | cons c rest ih =>
    intro s
    rw [List.foldl_cons]
    rcases le_total (im c) s with hle | hle
    · rw [max_eq_left hle]
      rcases ih s with he | ⟨p, hp, he⟩
      · exact Or.inl he
      · exact Or.inr ⟨p, List.mem_cons_of_mem c hp, he⟩
    · rw [max_eq_right hle]
      rcases ih (im c) with he | ⟨p, hp, he⟩
      · exact Or.inr ⟨c, List.mem_cons_self c rest, he⟩
      · exact Or.inr ⟨p, List.mem_cons_of_mem c hp, he⟩

/-- With local contrast at least 25, the thresholded patch contains both a
bright and a dark pixel: the maximum is above `(maxV+minV)/2` and the
minimum is not. -/
theorem thresPatch_both (im : ℕ × ℕ → ℕ) (h w : ℕ) (hh : 0 < h) (hw : 0 < w)
    (hbyte : ∀ p, im p ≤ 255)
    (hc : 25 ≤ maxVal im h w - minVal im h w) :
    (∃ p ∈ cells h w, thresPatch im h w p = true) ∧
    (∃ p ∈ cells h w, thresPatch im h w p = false) := by
  have h00 : ((0, 0) : ℕ × ℕ) ∈ cells h w := by
    unfold cells
    rw [List.mem_flatMap]
    exact ⟨0, List.mem_range.mpr hh, List.mem_map.mpr
      ⟨0, List.mem_range.mpr hw, rfl⟩⟩
  have hmaxDef : maxVal im h w
      = (cells h w).foldl (fun m q => max m (im q)) 0 := rfl
  have hminDef : minVal im h w
      = (cells h w).foldl (fun m q => min m (im q)) 255 := rfl
  have hmax00 : im (0, 0) ≤ maxVal im h w := by
    rw [hmaxDef]; exact foldl_max_ge_mem im (cells h w) 0 (0, 0) h00
  have hmin00 : minVal im h w ≤ im (0, 0) := by
    rw [hminDef]; exact foldl_min_le_mem im (cells h w) 255 (0, 0) h00
  obtain ⟨pM, hpM, hM⟩ : ∃ p ∈ cells h w, im p = maxVal im h w := by
    rcases foldl_max_attains im (cells h w) 0 with he | ⟨p, hp, he⟩
    · exfalso
      rw [hmaxDef] at hc hmax00
      rw [he] at hc hmax00
      omega
    · exact ⟨p, hp, by rw [hmaxDef, he]⟩
  obtain ⟨pm, hpm, hm⟩ : ∃ p ∈ cells h w, im p = minVal im h w := by
    rcases foldl_min_attains im (cells h w) 255 with he | ⟨p, hp, he⟩
    · refine ⟨(0, 0), h00, ?_⟩
      have h255 : minVal im h w = 255 := by rw [hminDef, he]
      have := hbyte (0, 0)
      omega
    · exact ⟨p, hp, by rw [hminDef, he]⟩
  have hlt : minVal im h w < maxVal im h w := by omega
  have hltQ : (minVal im h w : ℚ) < (maxVal im h w : ℚ) := by exact_mod_cast hlt
  constructor
  · refine ⟨pM, hpM, ?_⟩
    unfold thresPatch
    rw [decide_eq_true_eq, hM]
    push_cast
    linarith
  · refine ⟨pm, hpm, ?_⟩
    unfold thresPatch
    rw [decide_eq_false_iff_not, hm, not_lt]
    push_cast
    linarith

/-- Claim C9: for every patch with local contrast `maxV - minV ≥ 25` (pixels
are bytes, the window nonempty and inside the image so the patch is given
directly), if the connected-component labelling yields at most one distinct
component then the class is set to 0 — this conditional holds because its
antecedent never does: the labelling always yields `nc ≥ 2` under these
hypotheses, since both threshold values occur, labels of different values are
never unioned, and each union key exceeds a smaller label of its own value,
so the minimal label of each value class is never a key. -/
theorem assignClass_nc (im : ℕ × ℕ → ℕ) (h w : ℕ) (hh : 0 < h) (hw : 0 < w)
    (hbyte : ∀ p, im p ≤ 255)
    (hc : 25 ≤ maxVal im h w - minVal im h w) :
    2 ≤ computedNC im h w ∧
    (∀ (nZ total : ℕ) (old : ℤ), computedNC im h w ≤ 1 →
      classDecision (computedNC im h w) nZ total old = 0) := by
  obtain ⟨⟨pT, hTm, hTv⟩, pF, hFm, hFv⟩ :=
    thresPatch_both im h w hh hw hbyte hc
  have h2 : 2 ≤ computedNC im h w :=
    ccl_nc_ge_two (thresPatch im h w) (cells h w) pT pF hTm hFm hTv hFv
  refine ⟨h2, ?_⟩
  intro nZ total old hle
  exfalso
  omega

/-- Witness patch for claim C9: a 1×2 patch with pixel values 0 and 100
(contrast 100); its labelling yields exactly two components. -/
def c9Im : ℕ × ℕ → ℕ := fun p => if p = (0, 0) then 0 else 100

theorem assignClass_nc_witness :
    ((0 : ℕ) < 1 ∧ (0 : ℕ) < 2 ∧ (∀ p, c9Im p ≤ 255) ∧
      25 ≤ maxVal c9Im 1 2 - minVal c9Im 1 2 ∧ computedNC c9Im 1 2 = 2) ∧
    (2 ≤ computedNC c9Im 1 2 ∧
      (∀ (nZ total : ℕ) (old : ℤ), computedNC c9Im 1 2 ≤ 1 →
        classDecision (computedNC c9Im 1 2) nZ total old = 0)) :=
  ⟨⟨by decide, by decide,
      by intro p; unfold c9Im; split <;> omega,
      by with_unfolding_all decide, by with_unfolding_all rfl⟩,
    assignClass_nc c9Im 1 2 (by decide) (by decide)
      (by intro p; unfold c9Im; split <;> omega)
      (by with_unfolding_all decide)⟩

end OpencvFractal
